import Mathlib

/-!
gophorth: a shallow embedding of the interpreter.

The Go program is a small Forth-like interpreter (`main.go`, `stack.go`,
`anonystack.go`).  Values on the stacks are Go interface values holding an
`int64`, a `string`, a `wordLiteral` or a `wordReference`; they are embedded as
the inductive type `Value`.  Machine integers are `Int` with explicit wrapping.
Stacks are lists whose last element is the top, as Go slices grown by `append`.
-/

namespace Gophorth

/-! ## Values -/

/-- The dynamic values held by a `Stack` (a slice of interface values): `int64`, `string`,
`wordLiteral{items}` and `wordReference{from, key}`.  Every `wordReference`
built by the program has `from` equal to the one shared dictionary `i.words`,
so only the key is stored. -/
inductive Value where
  | int (n : Int)
  | str (s : String)
  | lit (items : List Value)
  | ref (key : String)

/-- The Go type `Stack`, a slice of values; the top is the last element. -/
abbrev Stack := List Value

/-- The Go type `AnonStack`, a slice of stacks; the top is the last element. -/
abbrev AnonStack := List Stack

/-! ## 64-bit arithmetic -/

/-- Two to the power 64. -/
def two64 : Nat := 18446744073709551616

/-- Two to the power 63. -/
def two63 : Nat := 9223372036854775808

/-- The smallest `int64`. -/
def minInt64 : Int := -9223372036854775808

/-- The largest `int64`. -/
def maxInt64 : Int := 9223372036854775807

/-- The predicate of being representable as an `int64`. -/
def isInt64 (n : Int) : Prop := minInt64 ≤ n ∧ n ≤ maxInt64

instance (n : Int) : Decidable (isInt64 n) := by
  unfold isInt64
  exact inferInstance

/-- Reduction of a mathematical integer to the `int64` with the same residue
modulo `2^64` (what Go arithmetic on `int64` and the conversion `int64(u)` do). -/
def wrap64 (x : Int) : Int := (x + 9223372036854775808) % 18446744073709551616 - 9223372036854775808

/-- The conversion `uint64(i)` of an `int64`. -/
def toUint64 (i : Int) : Nat := (i % 18446744073709551616).toNat

/-! ## strconv.FormatInt and strconv.ParseInt, base 6 -/

/-- The digit table of `strconv`. -/
def digits : List Char := "0123456789abcdefghijklmnopqrstuvwxyz".data

/-- The general-case loop of `strconv.formatBits` for base 6: digits are written
from the end of a 65 byte buffer toward its start; `a` is the part written so
far.  The first argument bounds the number of iterations by the buffer size. -/
def formatBitsLoop : Nat → Nat → List Char → List Char
  | 0, _, a => a
  | k + 1, u, a =>
    if u ≥ 6 then
      let q := u / 6
      formatBitsLoop k q (digits.getD (u - q * 6) '0' :: a)
    else
      digits.getD u '0' :: a

/-- The function `strconv.FormatInt(i, 6)`. -/
def FormatInt (i : Int) : String :=
  let neg : Bool := decide (i < 0)
  let u := toUint64 i
  let u := if neg then (two64 - u) % two64 else u
  let a := formatBitsLoop 65 u []
  String.mk (if neg then '-' :: a else a)

/-- The function `lower` of `strconv`: `c | ('x' - 'X')`. -/
def lower (c : Char) : Nat := c.toNat ||| 0x20

/-- The digit value `strconv.ParseUint` assigns to a byte, if any. -/
def digitVal (c : Char) : Option Nat :=
  if '0'.toNat ≤ c.toNat ∧ c.toNat ≤ '9'.toNat then some (c.toNat - '0'.toNat)
  else if 'a'.toNat ≤ lower c ∧ lower c ≤ 'z'.toNat then some (lower c - 'a'.toNat + 10)
  else none

/-- The digit loop of `strconv.ParseUint(s, 6, 64)`; `none` stands for any error
(syntax or range), which the callers do not tell apart. -/
def ParseUintLoop : List Char → Nat → Option Nat
  | [], n => some n
  | c :: cs, n =>
    match digitVal c with
    | none => none
    | some d =>
      if d ≥ 6 then none
      else if n ≥ (two64 - 1) / 6 + 1 then none
      else
        let n6 := (n * 6) % two64
        let n1 := (n6 + d) % two64
        if n1 < n6 ∨ n1 > two64 - 1 then none
        else ParseUintLoop cs n1

/-- The function `strconv.ParseUint(s, 6, 64)` on the bytes of `s`. -/
def ParseUint (s : List Char) : Option Nat :=
  if s = [] then none else ParseUintLoop s 0

/-- The function `strconv.ParseInt(s, 6, 64)`; `none` when `err != nil`. -/
def ParseInt (s : String) : Option Int :=
  match s.data with
  | [] => none
  | c :: cs =>
    let neg : Bool := decide (c = '-')
    let rest := if c = '+' then cs else if c = '-' then cs else c :: cs
    match ParseUint rest with
    | none => none
    | some un =>
      if !neg && decide (un ≥ two63) then none
      else if neg && decide (un > two63) then none
      else
        let n := wrap64 (un : Int)
        some (if neg then wrap64 (-n) else n)

/-! ## stringify -/

mutual
/-- The function `stringify` of `main.go`. -/
def stringify : Value → String
  | .str item => item
  | .int item => FormatInt item
  | .lit items => "[ " ++ " ".intercalate (stringifyItems items) ++ " ]"
  | .ref key => "& " ++ key
/-- The loop of `stringify` over the items of a `wordLiteral`. -/
def stringifyItems : List Value → List String
  | [] => []
  | item :: rest => stringify item :: stringifyItems rest
end

/-! ## Equality of values -/

mutual
/-- The function `reflect.DeepEqual` on two stack values: values of different
dynamic type are unequal; integers and strings compare by value; a
`wordLiteral` compares its `items` slice by length and then element by element;
two `wordReference`s hold the same map, which `DeepEqual` accepts on pointer
identity, so they compare by key. -/
def deepEqual : Value → Value → Bool
  | .int a, .int b => decide (a = b)
  | .str a, .str b => decide (a = b)
  | .lit a, .lit b => deepEqualItems a b
  | .ref a, .ref b => decide (a = b)
  | _, _ => false
/-- The slice case of `reflect.DeepEqual`. -/
def deepEqualItems : List Value → List Value → Bool
  | [], [] => true
  | a :: as, b :: bs => deepEqual a b && deepEqualItems as bs
  | _, _ => false
end

mutual
/-- Decision of equality of two values, by recursion on their structure. -/
def Value.decEq : (a b : Value) → Decidable (a = b)
  | .int a, .int b =>
    if h : a = b then isTrue (by rw [h]) else isFalse (by intro e; cases e; exact h rfl)
  | .str a, .str b =>
    if h : a = b then isTrue (by rw [h]) else isFalse (by intro e; cases e; exact h rfl)
  | .lit a, .lit b =>
    match Value.decEqList a b with
    | isTrue h => isTrue (by rw [h])
    | isFalse h => isFalse (by intro e; cases e; exact h rfl)
  | .ref a, .ref b =>
    if h : a = b then isTrue (by rw [h]) else isFalse (by intro e; cases e; exact h rfl)
  | .int _, .str _ => isFalse (by intro e; cases e)
  | .int _, .lit _ => isFalse (by intro e; cases e)
  | .int _, .ref _ => isFalse (by intro e; cases e)
  | .str _, .int _ => isFalse (by intro e; cases e)
  | .str _, .lit _ => isFalse (by intro e; cases e)
  | .str _, .ref _ => isFalse (by intro e; cases e)
  | .lit _, .int _ => isFalse (by intro e; cases e)
  | .lit _, .str _ => isFalse (by intro e; cases e)
  | .lit _, .ref _ => isFalse (by intro e; cases e)
  | .ref _, .int _ => isFalse (by intro e; cases e)
  | .ref _, .str _ => isFalse (by intro e; cases e)
  | .ref _, .lit _ => isFalse (by intro e; cases e)
/-- Decision of equality of two lists of values. -/
def Value.decEqList : (as bs : List Value) → Decidable (as = bs)
  | [], [] => isTrue rfl
  | [], _ :: _ => isFalse (by intro e; cases e)
  | _ :: _, [] => isFalse (by intro e; cases e)
  | a :: as, b :: bs =>
    match Value.decEq a b, Value.decEqList as bs with
    | isTrue h1, isTrue h2 => isTrue (by rw [h1, h2])
    | isFalse h1, _ => isFalse (by intro e; cases e; exact h1 rfl)
    | _, isFalse h2 => isFalse (by intro e; cases e; exact h2 rfl)
end

instance : DecidableEq Value := Value.decEq

/-! ## Interpreter state -/

/-- The native operations installed by `newInterpreter`, one per closure. -/
inductive Native where
  | print | stack | colon | semicolon | plus | go | sleep | amp
  | lbracket | rbracket | dup | run | pop | if_ | eq | not
  deriving DecidableEq, Repr

/-- The Go struct `word`; `native = none` is the nil function. -/
structure word where
  native : Option Native
  nonNative : Stack
  immediate : Bool
  deriving DecidableEq

/-- The Go struct `interpreter`.  The token source `reader` is the list of tokens
still to be scanned; `output` collects the lines written by `println`. -/
structure interpreter where
  reader : List String
  words : String → Option word
  stack : Stack
  compiling : Bool
  commenting : Bool
  currentlyCompilingWord : String
  currentlyCompiling : Stack
  anonymousStack : AnonStack
  output : List String

/-- The outcome of running a piece of the interpreter: a successor state, a
fatal stop of the process (`panic` or `log.Fatal`), or exhaustion of the
evaluation budget of the model. -/
inductive Result where
  | ok (i : interpreter)
  | fatal
  | timeout

/-- Sequencing of an outcome with a continuation. -/
def Result.andThen : Result → (interpreter → Result) → Result
  | .ok i, f => f i
  | .fatal, _ => .fatal
  | .timeout, _ => .timeout

/-- The order of outcomes under a growing evaluation budget: a `timeout` may
become anything, every other outcome stays. -/
def Result.le (r r' : Result) : Prop := r = .timeout ∨ r = r'

/-- The zero value `word{}`, returned by a map lookup of a missing key. -/
def zeroWord : word := ⟨none, [], false⟩

/-- The map lookup `m[key]` used as a value: the zero word when the key is missing. -/
def lookupOrZero (m : String → Option word) (key : String) : word :=
  (m key).getD zeroWord

/-- The map assignment `m[key] = w`. -/
def mapSet (m : String → Option word) (key : String) (w : word) : String → Option word :=
  fun k => if k = key then some w else m k

/-! ## stack.go and anonystack.go -/

/-- The method `Stack.Push`. -/
def Stack.Push (s : Stack) (v : Value) : Stack := s ++ [v]

/-- The method `Stack.Pop`: the shortened stack, the element and the flag. -/
def Stack.Pop (s : Stack) : Stack × Value × Bool :=
  if s.isEmpty then (s, Value.str "", false)
  else (s.dropLast, s.getLast?.getD (Value.str ""), true)

/-- The method `Stack.Top`. -/
def Stack.Top (s : Stack) : Value :=
  if s.isEmpty then Value.str "" else s.getLast?.getD (Value.str "")

/-- The method `AnonStack.Push`. -/
def AnonStack.Push (s : AnonStack) (v : Stack) : AnonStack := s ++ [v]

/-- The method `AnonStack.Pop`. -/
def AnonStack.Pop (s : AnonStack) : AnonStack × Stack × Bool :=
  if s.isEmpty then (s, [], false)
  else (s.dropLast, s.getLast?.getD [], true)

/-- The method `AnonStack.PushOnTop`; indexing an empty slice panics (`none`). -/
def AnonStack.PushOnTop (s : AnonStack) (v : Value) : Option AnonStack :=
  match s.getLast? with
  | none => none
  | some top => some (s.dropLast ++ [Stack.Push top v])

/-! ## The interpreter -/

/-- The method `interpreter.ReadWord`: the next token, or the empty string at the
end of the input (where `Scan` fails and `Err` is nil). -/
def ReadWord (i : interpreter) : String × interpreter :=
  match i.reader with
  | [] => ("", i)
  | t :: rest => (t, { i with reader := rest })

/-- The loop `for _, item := range items` whose body is
`i.ExecuteWord(stringify(item))`, over a given `ExecuteWord`. -/
def runItems (exec : String → interpreter → Result) : List Value → interpreter → Result
  | [], i => .ok i
  | item :: rest, i => (exec (stringify item) i).andThen (runItems exec rest)

/-- The loop of the `stack` word: one line per element, index first. -/
def stackLines : Nat → List Value → List String
  | _, [] => []
  | idx, item :: rest => (toString idx ++ " \t" ++ stringify item) :: stackLines (idx + 1) rest

/-- The shared tail of `run` and `if`: a `wordReference` runs the word it names
now, a `wordLiteral` has its items dispatched, anything else fails the type
assertion. -/
def runValue (exec : String → interpreter → Result) (run : word → interpreter → Result)
    (v : Value) (i : interpreter) : Result :=
  match v with
  | .ref key => run (lookupOrZero i.words key) i
  | .lit items => runItems exec items i
  | _ => .fatal

/-- The closures of `newInterpreter`, given the two methods they call back
(`ExecuteWord` and `word.run`).  The goroutine started by `go` is run to its
end at once, before the caller continues. -/
def runNative (exec : String → interpreter → Result) (run : word → interpreter → Result) :
    Native → interpreter → Result
  | .print, i => .ok { i with output := i.output ++ [stringify (Stack.Top i.stack)] }
  | .stack, i => .ok { i with output := i.output ++ stackLines 0 i.stack }
  | .colon, i =>
    let (w, i) := ReadWord i
    .ok { i with currentlyCompilingWord := w, compiling := true }
  | .semicolon, i =>
    .ok { i with
      words := mapSet i.words i.currentlyCompilingWord ⟨none, i.currentlyCompiling, false⟩
      currentlyCompiling := []
      currentlyCompilingWord := ""
      compiling := false }
  | .plus, i =>
    match Stack.Pop i.stack with
    | (_, _, false) => .fatal
    | (s1, v, true) =>
      match Stack.Pop s1 with
      | (_, _, false) => .fatal
      | (s2, v2, true) =>
        match v, v2 with
        | .int a, .int b => .ok { i with stack := Stack.Push s2 (.int (wrap64 (a + b))) }
        | _, _ => .fatal
  | .go, i =>
    let (w, i) := ReadWord i
    run (lookupOrZero i.words w) i
  | .sleep, i =>
    match Stack.Pop i.stack with
    | (_, _, false) => .fatal
    | (s1, .int _, true) => .ok { i with stack := s1 }
    | (_, _, true) => .fatal
  | .amp, i =>
    let (w, i) := ReadWord i
    .ok { i with stack := Stack.Push i.stack (.ref w) }
  | .lbracket, i => .ok { i with anonymousStack := AnonStack.Push i.anonymousStack [] }
  | .rbracket, i =>
    match AnonStack.Pop i.anonymousStack with
    | (_, _, false) => .fatal
    | (a, val, true) => .ok { i with anonymousStack := a, stack := Stack.Push i.stack (.lit val) }
  | .dup, i => .ok { i with stack := Stack.Push i.stack (Stack.Top i.stack) }
  | .run, i =>
    match Stack.Pop i.stack with
    | (_, _, false) => .fatal
    | (s1, items, true) => runValue exec run items { i with stack := s1 }
  | .pop, i => .ok { i with stack := (Stack.Pop i.stack).1 }
  | .if_, i =>
    match Stack.Pop i.stack with
    | (_, _, false) => .fatal
    | (s1, .int c, true) =>
      if c = 0 then .ok { i with stack := s1 }
      else
        match Stack.Pop s1 with
        | (_, _, false) => .fatal
        | (s2, e, true) => runValue exec run e { i with stack := s2 }
    | (_, _, true) => .fatal
  | .eq, i =>
    match Stack.Pop i.stack with
    | (_, _, false) => .fatal
    | (s1, lhs, true) =>
      match Stack.Pop s1 with
      | (_, _, false) => .fatal
      | (s2, rhs, true) =>
        if deepEqual lhs rhs then .ok { i with stack := Stack.Push s2 (.int 1) }
        else .ok { i with stack := Stack.Push s2 (.int 0) }
  | .not, i =>
    match Stack.Pop i.stack with
    | (_, _, false) => .fatal
    | (s1, .int c, true) =>
      if c = 0 then .ok { i with stack := Stack.Push s1 (.int 1) }
      else .ok { i with stack := Stack.Push s1 (.int 0) }
    | (_, _, true) => .fatal

/-- The body of `word.run`, given the two methods it calls. -/
def wordRunBody (exec : String → interpreter → Result) (run : word → interpreter → Result)
    (w : word) (i : interpreter) : Result :=
  match w.native with
  | some f => runNative exec run f i
  | none => runItems exec w.nonNative i

/-- Appending to the top literal frame, as the calls `i.anonymousStack.PushOnTop(v)`. -/
def pushOnTop (i : interpreter) (v : Value) : Result :=
  match AnonStack.PushOnTop i.anonymousStack v with
  | none => .fatal
  | some a => .ok { i with anonymousStack := a }

/-- The body of `interpreter.ExecuteWord`, given `word.run`. -/
def executeWordBody (run : word → interpreter → Result) (s : String) (i : interpreter) : Result :=
  if s = "(" then .ok { i with commenting := true }
  else if i.commenting then
    if s = ")" then .ok { i with commenting := false } else .ok i
  else if !i.anonymousStack.isEmpty then
    match i.words s with
    | some val =>
      if val.immediate && decide (s ≠ "]") then .fatal
      else if val.immediate && decide (s = "]") then run val i
      else
        match ParseInt s with
        | some n => pushOnTop i (.int n)
        | none => pushOnTop i (.str s)
    | none =>
      match ParseInt s with
      | some n => pushOnTop i (.int n)
      | none => .fatal
  else
    match i.words s with
    | some val =>
      if !i.compiling || val.immediate then run val i
      else
        match ParseInt s with
        | some n => .ok { i with currentlyCompiling := Stack.Push i.currentlyCompiling (.int n) }
        | none => .ok { i with currentlyCompiling := Stack.Push i.currentlyCompiling (.str s) }
    | none =>
      match ParseInt s with
      | some n => .ok { i with stack := Stack.Push i.stack (.int n) }
      | none => .fatal

mutual
/-- The method `interpreter.ExecuteWord`.  The first argument bounds the depth of
nested calls between `ExecuteWord` and `word.run`; at depth zero the outcome is
`timeout`. -/
def ExecuteWord : Nat → String → interpreter → Result
  | 0, _, _ => .timeout
  | k + 1, s, i => executeWordBody (wordRun k) s i
/-- The method `word.run`, with the same depth bound. -/
def wordRun : Nat → word → interpreter → Result
  | 0, _, _ => .timeout
  | k + 1, w, i => wordRunBody (ExecuteWord k) (wordRun k) w i
end

/-- Dispatching a sequence of tokens: `ExecuteWord` on each in order, stopping at
the first fatal stop. -/
def ExecuteWords (k : Nat) : List String → interpreter → Result
  | [], i => .ok i
  | t :: ts, i => (ExecuteWord k t i).andThen (ExecuteWords k ts)

/-- The loop of `main`, for at most `n` rounds: read a token, dispatch it.  The
loop is left when the token source is exhausted, so that the state reached
after the whole input can be observed. -/
def mainLoop (k : Nat) : Nat → interpreter → Result
  | 0, i => .ok i
  | n + 1, i =>
    match i.reader with
    | [] => .ok i
    | _ :: _ =>
      let (w, i1) := ReadWord i
      (ExecuteWord k w i1).andThen (mainLoop k n)

/-- The dictionary built by `newInterpreter`. -/
def builtinWords : String → Option word := fun s =>
  if s = "print" then some ⟨some .print, [], false⟩
  else if s = "stack" then some ⟨some .stack, [], false⟩
  else if s = ":" then some ⟨some .colon, [], false⟩
  else if s = ";" then some ⟨some .semicolon, [], true⟩
  else if s = "+" then some ⟨some .plus, [], false⟩
  else if s = "go" then some ⟨some .go, [], false⟩
  else if s = "sleep" then some ⟨some .sleep, [], false⟩
  else if s = "&" then some ⟨some .amp, [], false⟩
  else if s = "[" then some ⟨some .lbracket, [], false⟩
  else if s = "]" then some ⟨some .rbracket, [], true⟩
  else if s = "dup" then some ⟨some .dup, [], false⟩
  else if s = "run" then some ⟨some .run, [], false⟩
  else if s = "pop" then some ⟨some .pop, [], false⟩
  else if s = "if" then some ⟨some .if_, [], false⟩
  else if s = "=" then some ⟨some .eq, [], false⟩
  else if s = "!" then some ⟨some .not, [], false⟩
  else none

/-- The function `newInterpreter`, on a token source. -/
def newInterpreter (r : List String) : interpreter :=
  { reader := r, words := builtinWords, stack := [], compiling := false, commenting := false,
    currentlyCompilingWord := "", currentlyCompiling := [], anonymousStack := [], output := [] }

/-- The initial state after a definition of `name` has been opened, with the given
in-progress body and Data Stack. -/
def compilingState (name : String) (body : Stack) (st : Stack) : interpreter :=
  { reader := [], words := builtinWords, stack := st, compiling := true, commenting := false,
    currentlyCompilingWord := name, currentlyCompiling := body, anonymousStack := [],
    output := [] }

/-- The state in which the word `(` has been defined with an empty body (by
`: ( ;`) and a literal has been opened (by `[`). -/
def parenLiteralState : interpreter :=
  { reader := [], words := mapSet builtinWords "(" ⟨none, [], false⟩, stack := [],
    compiling := false, commenting := false, currentlyCompilingWord := "",
    currentlyCompiling := [], anonymousStack := [[]], output := [] }

/-- The state in which the word `(` has been defined with an empty body (by
`: ( ;`), with `foo` next in the token source. -/
def parenDefinedState : interpreter :=
  { reader := ["foo"], words := mapSet builtinWords "(" ⟨none, [], false⟩, stack := [],
    compiling := false, commenting := false, currentlyCompilingWord := "",
    currentlyCompiling := [], anonymousStack := [], output := [] }

/-- The value a token degrades to inside a literal or a definition: its integer
when it parses as one, else its own text. -/
def tokenValue (t : String) : Value :=
  match ParseInt t with
  | some n => Value.int n
  | none => Value.str t

/-- The state right after `: name body ;` has been dispatched from state `i` whose
token source held `name` followed by `r`: the dictionary maps `name` to the
compiled, non-immediate word with the given body, the name has been consumed,
and the pending name is empty. -/
def afterDefinition (i : interpreter) (name : String) (r : List String) (body : Stack) :
    interpreter :=
  { i with
    reader := r
    words := mapSet i.words name ⟨none, body, false⟩
    currentlyCompiling := []
    currentlyCompilingWord := ""
    compiling := false }

/-- The native words that work on the Data Stack, the literal frames and the
output only: they neither read the token source, nor run another word, nor
write the dictionary. -/
def Native.plain : Native → Bool
  | .print | .stack | .plus | .sleep | .lbracket | .dup | .pop | .eq | .not => true
  | .colon | .semicolon | .go | .amp | .rbracket | .run | .if_ => false

/-- The state `j` with another token source, dictionary and pending name. -/
def retable (rd : List String) (w : String → Option word) (c : String) (j : interpreter) :
    interpreter :=
  { j with reader := rd, words := w, currentlyCompilingWord := c }

/-- The outcome with its state, if any, transformed. -/
def Result.map (f : interpreter → interpreter) : Result → Result
  | .ok i => .ok (f i)
  | .fatal => .fatal
  | .timeout => .timeout

/-- The state reached by `main` once it has dispatched the whole input `r`. -/
def runProgram (k : Nat) (r : List String) : Result :=
  mainLoop k r.length (newInterpreter r)

/-- The Data Stack of an outcome, when there is one. -/
def Result.dataStack : Result → Option Stack
  | .ok i => some i.stack
  | _ => none

/-- Whether a value is an `int64`, that is, whether the type assertion
`v.(int64)` succeeds. -/
def Value.isInt : Value → Bool
  | .int _ => true
  | _ => false

/-- Whether a value is a `wordReference` or a `wordLiteral`, the two kinds that
`run` and `if` can execute. -/
def Value.isExec : Value → Bool
  | .ref _ => true
  | .lit _ => true
  | _ => false

/-- The dictionaries in which every immediate entry is the built-in entry of its
key.  The built-in dictionary is one, and `;`, the only code that stores an
entry, stores a non-immediate one. -/
def dictOK (d : String → Option word) : Prop :=
  ∀ s w, d s = some w → w.immediate = true → builtinWords s = some w

/-- The invariant of the literal-collection stack: at most one frame is open, and
the dictionary has no immediate entries but built-in ones. -/
def depthOK (i : interpreter) : Prop :=
  i.anonymousStack.length ≤ 1 ∧ dictOK i.words

/-- The tokens that keep a definition open over the built-in dictionary: a token
other than `(` that names a non-immediate built-in word (it is deferred into
the body) or is no built-in name and parses as a numeral (it is pushed). -/
def deferredToken (t : String) : Bool :=
  decide (t ≠ "(") &&
    (match builtinWords t with
      | some w => !w.immediate
      | none => (ParseInt t).isSome)

/-! ## The token source -/

/-- The function `isSpace` of `bufio`, on the code point of a character. -/
def isSpace (c : Char) : Bool :=
  if c.toNat ≤ 0xFF then
    decide (c.toNat = 0x20) || decide (c.toNat = 0x09) || decide (c.toNat = 0x0A) ||
    decide (c.toNat = 0x0B) || decide (c.toNat = 0x0C) || decide (c.toNat = 0x0D) ||
    decide (c.toNat = 0x85) || decide (c.toNat = 0xA0)
  else if 0x2000 ≤ c.toNat ∧ c.toNat ≤ 0x200A then true
  else
    decide (c.toNat = 0x1680) || decide (c.toNat = 0x2028) || decide (c.toNat = 0x2029) ||
    decide (c.toNat = 0x202F) || decide (c.toNat = 0x205F) || decide (c.toNat = 0x3000)

/-- The split function `bufio.ScanWords` applied over a whole text: leading spaces
are skipped, a word runs up to the next space or the end of the text; `cur` is
the word begun so far. -/
def scanWordsAux : List Char → List Char → List String
  | [], cur => if cur = [] then [] else [String.mk cur]
  | c :: cs, cur =>
    if isSpace c then
      if cur = [] then scanWordsAux cs [] else String.mk cur :: scanWordsAux cs []
    else scanWordsAux cs (cur ++ [c])

/-- The tokens the scanner of `newInterpreter` (a `bufio.Scanner` splitting with
`bufio.ScanWords`) delivers for a text. -/
def ScanWords (s : String) : List String := scanWordsAux s.data []

/-- The values the literal branch of `ExecuteWord` can append to a frame under
dictionary `d`: an integer that `ParseInt` returned, or the text of a token
(not empty, free of spaces, other than the comment opener) that names a known
non-immediate word and does not parse as a numeral. -/
def collectable (d : String → Option word) : Value → Prop
  | .int n => isInt64 n
  | .str s => s ≠ "(" ∧ ParseInt s = none ∧ (∃ w, d s = some w ∧ w.immediate = false) ∧
      s.data ≠ [] ∧ ∀ c ∈ s.data, isSpace c = false
  | .lit _ => False
  | .ref _ => False

/-! ## Base-6 rendering and parsing -/

theorem digitVal_digits (k : Nat) (h : k < 6) : digitVal (digits.getD k '0') = some k := by
  interval_cases k <;> decide

theorem foldl_digit_ge (l : List Char) (n : Nat) :
    n ≤ List.foldl (fun m c => m * 6 + (digitVal c).getD 0) n l := by
  induction l generalizing n with
  | nil => simp
  | cons c cs ih =>
    simp only [List.foldl_cons]
    have := ih (n * 6 + (digitVal c).getD 0)
    omega

theorem ParseUintLoop_eq (l : List Char) (n : Nat)
    (hl : ∀ c ∈ l, ∃ d, digitVal c = some d ∧ d < 6)
    (hb : List.foldl (fun m c => m * 6 + (digitVal c).getD 0) n l < two64) :
    ParseUintLoop l n = some (List.foldl (fun m c => m * 6 + (digitVal c).getD 0) n l) := by
  induction l generalizing n with
  | nil => simp [ParseUintLoop]
  | cons c cs ih =>
    obtain ⟨d, hd, hd6⟩ := hl c (List.mem_cons_self _ _)
    simp only [List.foldl_cons, hd, Option.getD_some] at hb ⊢
    have hge := foldl_digit_ge cs (n * 6 + d)
    have hlt : n * 6 + d < two64 := lt_of_le_of_lt hge hb
    have ih2 := ih (n * 6 + d) (fun c hc => hl c (List.mem_cons_of_mem _ hc)) hb
    simp only [two64] at hlt
    have e1 : (n * 6) % two64 = n * 6 := by simp only [two64]; omega
    have e2 : (n * 6 + d) % two64 = n * 6 + d := by simp only [two64]; omega
    have c1 : ¬ d ≥ 6 := by omega
    have c2 : ¬ n ≥ (two64 - 1) / 6 + 1 := by simp only [two64]; omega
    have c3 : ¬ (n * 6 + d < n * 6 ∨ n * 6 + d > two64 - 1) := by simp only [two64]; omega
    simp only [ParseUintLoop, hd, c1, c2, e1, e2, c3, if_false]
    exact ih2

theorem formatBitsLoop_valid (k u : Nat) (a : List Char)
    (ha : ∀ c ∈ a, ∃ d, digitVal c = some d ∧ d < 6) :
    ∀ c ∈ formatBitsLoop k u a, ∃ d, digitVal c = some d ∧ d < 6 := by
  induction k generalizing u a with
  | zero => simpa [formatBitsLoop] using ha
  | succ k ih =>
    unfold formatBitsLoop
    split
    · apply ih
      intro c hc
      rcases List.mem_cons.1 hc with rfl | hc
      · exact ⟨u - u / 6 * 6, digitVal_digits _ (by omega), by omega⟩
      · exact ha c hc
    · intro c hc
      rcases List.mem_cons.1 hc with rfl | hc
      · exact ⟨u, digitVal_digits _ (by omega), by omega⟩
      · exact ha c hc

theorem formatBitsLoop_val (k u : Nat) (a : List Char) (hu : u < 6 ^ k) :
    List.foldl (fun m c => m * 6 + (digitVal c).getD 0) 0 (formatBitsLoop k u a)
      = List.foldl (fun m c => m * 6 + (digitVal c).getD 0) u a := by
  induction k generalizing u a with
  | zero =>
    have : u = 0 := by simpa using hu
    simp [formatBitsLoop, this]
  | succ k ih =>
    unfold formatBitsLoop
    split
    · have hq : u / 6 < 6 ^ k := by
        rw [Nat.div_lt_iff_lt_mul (by norm_num)]
        calc u < 6 ^ (k + 1) := hu
          _ = 6 ^ k * 6 := by ring
      rw [ih _ _ hq]
      simp only [List.foldl_cons, digitVal_digits (u - u / 6 * 6) (by omega), Option.getD_some]
      congr 1
      omega
    · simp only [List.foldl_cons, digitVal_digits u (by omega), Option.getD_some]
      congr 1
      omega

theorem formatBitsLoop_ne_nil (k u : Nat) (a : List Char) : formatBitsLoop (k + 1) u a ≠ [] := by
  induction k generalizing u a with
  | zero =>
    unfold formatBitsLoop
    split <;> simp [formatBitsLoop]
  | succ k ih =>
    unfold formatBitsLoop
    split
    · exact ih _ _
    · simp

theorem ParseUint_formatBits (u : Nat) (hu : u < two64) :
    ParseUint (formatBitsLoop 65 u []) = some u := by
  have hv := formatBitsLoop_valid 65 u [] (by simp)
  have hval := formatBitsLoop_val 65 u [] (lt_of_lt_of_le hu (by simp only [two64]; norm_num))
  simp only [List.foldl_nil] at hval
  have := ParseUintLoop_eq (formatBitsLoop 65 u []) 0 hv (by rw [hval]; exact hu)
  rw [hval] at this
  simp [ParseUint, formatBitsLoop_ne_nil, this]

theorem FormatInt_neg (n : Int) (h1 : minInt64 ≤ n) (hneg : n < 0) :
    FormatInt n = String.mk ('-' :: formatBitsLoop 65 n.natAbs []) := by
  simp only [minInt64] at h1
  have hu : (two64 - toUint64 n) % two64 = n.natAbs := by
    simp only [two64, toUint64]; omega
  unfold FormatInt
  simp only [hneg, decide_True, if_true, hu]

theorem FormatInt_nonneg (n : Int) (h2 : n ≤ maxInt64) (hneg : ¬ n < 0) :
    FormatInt n = String.mk (formatBitsLoop 65 n.natAbs []) := by
  simp only [maxInt64] at h2
  have hu : toUint64 n = n.natAbs := by simp only [toUint64]; omega
  unfold FormatInt
  simp only [hneg, decide_False, hu, Bool.false_eq_true, if_false]

theorem ParseInt_cons (c : Char) (cs : List Char) :
    ParseInt (String.mk (c :: cs)) =
      match ParseUint (if c = '+' then cs else if c = '-' then cs else c :: cs) with
      | none => none
      | some un =>
        if !decide (c = '-') && decide (un ≥ two63) then none
        else if decide (c = '-') && decide (un > two63) then none
        else some (if decide (c = '-') then wrap64 (-wrap64 (un : Int)) else wrap64 (un : Int)) := rfl

theorem ParseInt_FormatInt (n : Int) (h : isInt64 n) : ParseInt (FormatInt n) = some n := by
  obtain ⟨h1, h2⟩ := h
  have h1a := h1
  have h2a := h2
  simp only [minInt64, maxInt64] at h1a h2a
  have hlt : n.natAbs < two64 := by simp only [two64]; omega
  have hp := ParseUint_formatBits n.natAbs hlt
  by_cases hneg : n < 0
  · rw [FormatInt_neg n h1 hneg, ParseInt_cons]
    simp only [show ¬ ('-' = '+') by decide, if_false, if_true, hp]
    have c2 : ¬ (n.natAbs > two63) := by simp only [two63]; omega
    have e : wrap64 (-wrap64 (n.natAbs : Int)) = n := by simp only [wrap64]; omega
    simp only [decide_True, Bool.not_true, Bool.false_and, Bool.true_and, decide_eq_true_eq, c2,
      if_false, Bool.false_eq_true, if_true, e]
  · rw [FormatInt_nonneg n h2 hneg]
    have hv := formatBitsLoop_valid 65 n.natAbs [] (by simp)
    have hne := formatBitsLoop_ne_nil 64 n.natAbs []
    cases hfb : formatBitsLoop 65 n.natAbs [] with
    | nil => exact absurd hfb hne
    | cons c cs =>
      obtain ⟨d, hd, _⟩ := hv c (by rw [hfb]; exact List.mem_cons_self _ _)
      have hplus : c ≠ '+' := by
        rintro rfl
        have : digitVal '+' = none := by decide
        rw [this] at hd; cases hd
      have hminus : c ≠ '-' := by
        rintro rfl
        have : digitVal '-' = none := by decide
        rw [this] at hd; cases hd
      rw [hfb] at hp
      rw [ParseInt_cons]
      simp only [hplus, hminus, if_false, hp, decide_False]
      have c1 : ¬ (n.natAbs ≥ two63) := by simp only [two63]; omega
      have e : wrap64 (n.natAbs : Int) = n := by simp only [wrap64]; omega
      simp only [Bool.not_false, Bool.true_and, decide_eq_true_eq, c1, if_false, Bool.false_and,
        Bool.false_eq_true, e]

/-- Claim C1: for every signed 64-bit integer `n`, the minimum included, the text
`stringify` produces for `n` parses back, as a base-6 64-bit integer, to `n`. -/
theorem C1_base6_round_trip (n : Int) (h : isInt64 n) :
    ParseInt (stringify (Value.int n)) = some n := by
  simp only [stringify]
  exact ParseInt_FormatInt n h

theorem C1_base6_round_trip_witness :
    isInt64 minInt64 ∧ ParseInt (stringify (Value.int minInt64)) = some minInt64 :=
  ⟨by decide, C1_base6_round_trip minInt64 (by decide)⟩

/-! ## Unfolding lemmas -/

theorem ExecuteWord_succ (k : Nat) (s : String) (i : interpreter) :
    ExecuteWord (k + 1) s i = executeWordBody (wordRun k) s i := rfl

theorem wordRun_succ (k : Nat) (w : word) (i : interpreter) :
    wordRun (k + 1) w i = wordRunBody (ExecuteWord k) (wordRun k) w i := rfl

theorem Stack_Pop_append (s : Stack) (v : Value) : Stack.Pop (s ++ [v]) = (s, v, true) := by
  simp [Stack.Pop]

theorem Stack_Pop_nil : Stack.Pop [] = ([], Value.str "", false) := rfl

theorem Stack_Top_append (s : Stack) (v : Value) : Stack.Top (s ++ [v]) = v := by
  simp [Stack.Top]

theorem ExecuteWords_cons (k : Nat) (t : String) (ts : List String) (i : interpreter) :
    ExecuteWords k (t :: ts) i = (ExecuteWord k t i).andThen (ExecuteWords k ts) := rfl

theorem ExecuteWords_append (k : Nat) (ts us : List String) (i : interpreter) :
    ExecuteWords k (ts ++ us) i = (ExecuteWords k ts i).andThen (ExecuteWords k us) := by
  induction ts generalizing i with
  | nil => rfl
  | cons t ts ih =>
    simp only [List.cons_append, ExecuteWords_cons]
    cases ExecuteWord k t i with
    | ok j => exact ih j
    | fatal => rfl
    | timeout => rfl

theorem mainLoop_mk (k n : Nat) (t : String) (rest : List String) (w : String → Option word)
    (st : Stack) (cg cm : Bool) (ccw : String) (cc : Stack) (an : AnonStack) (out : List String) :
    mainLoop k (n + 1) ⟨t :: rest, w, st, cg, cm, ccw, cc, an, out⟩
      = (ExecuteWord k t ⟨rest, w, st, cg, cm, ccw, cc, an, out⟩).andThen (mainLoop k n) := rfl

theorem mainLoop_nil (k n : Nat) (w : String → Option word)
    (st : Stack) (cg cm : Bool) (ccw : String) (cc : Stack) (an : AnonStack) (out : List String) :
    mainLoop k n ⟨[], w, st, cg, cm, ccw, cc, an, out⟩
      = .ok ⟨[], w, st, cg, cm, ccw, cc, an, out⟩ := by
  cases n <;> rfl

theorem andThen_ok (i : interpreter) (f : interpreter → Result) :
    (Result.ok i).andThen f = f i := rfl

theorem andThen_fatal (f : interpreter → Result) : Result.fatal.andThen f = .fatal := rfl

theorem andThen_timeout (f : interpreter → Result) : Result.timeout.andThen f = .timeout := rfl

/-! ## A larger budget never changes a finished outcome -/

theorem Result.le_refl (r : Result) : Result.le r r := Or.inr rfl

theorem Result.le_trans (a b c : Result) (h1 : Result.le a b) (h2 : Result.le b c) :
    Result.le a c := by
  rcases h1 with h | h
  · exact Or.inl h
  · rw [h]; exact h2

theorem Result.le_eq (r r' : Result) (h : Result.le r r') (hr : r ≠ .timeout) : r' = r := by
  rcases h with h | h
  · exact absurd h hr
  · exact h.symm

theorem Result.andThen_mono (r r' : Result) (f f' : interpreter → Result)
    (h : Result.le r r') (hf : ∀ i, Result.le (f i) (f' i)) :
    Result.le (r.andThen f) (r'.andThen f') := by
  rcases h with h | h
  · rw [h]; exact Or.inl rfl
  · rw [← h]
    cases r with
    | ok i => exact hf i
    | fatal => exact Or.inr rfl
    | timeout => exact Or.inl rfl

theorem runItems_mono (exec exec' : String → interpreter → Result)
    (he : ∀ s i, Result.le (exec s i) (exec' s i)) (l : List Value) (i : interpreter) :
    Result.le (runItems exec l i) (runItems exec' l i) := by
  induction l generalizing i with
  | nil => exact Result.le_refl _
  | cons v l ih =>
    simp only [runItems]
    exact Result.andThen_mono _ _ _ _ (he _ _) ih

theorem runValue_mono (exec exec' : String → interpreter → Result)
    (run run' : word → interpreter → Result)
    (he : ∀ s i, Result.le (exec s i) (exec' s i))
    (hr : ∀ w i, Result.le (run w i) (run' w i)) (v : Value) (i : interpreter) :
    Result.le (runValue exec run v i) (runValue exec' run' v i) := by
  cases v with
  | int n => exact Result.le_refl _
  | str s => exact Result.le_refl _
  | lit items => exact runItems_mono exec exec' he items i
  | ref key => exact hr _ _

theorem runNative_mono (exec exec' : String → interpreter → Result)
    (run run' : word → interpreter → Result)
    (he : ∀ s i, Result.le (exec s i) (exec' s i))
    (hr : ∀ w i, Result.le (run w i) (run' w i)) (f : Native) (i : interpreter) :
    Result.le (runNative exec run f i) (runNative exec' run' f i) := by
  cases f
  case go => exact hr _ _
  case run =>
    simp only [runNative]
    split
    · exact Result.le_refl _
    · exact runValue_mono exec exec' run run' he hr _ _
  case if_ =>
    simp only [runNative]
    split
    · exact Result.le_refl _
    · split
      · exact Result.le_refl _
      · split
        · exact Result.le_refl _
        · exact runValue_mono exec exec' run run' he hr _ _
    · exact Result.le_refl _
  all_goals exact Result.le_refl _

theorem wordRunBody_mono (exec exec' : String → interpreter → Result)
    (run run' : word → interpreter → Result)
    (he : ∀ s i, Result.le (exec s i) (exec' s i))
    (hr : ∀ w i, Result.le (run w i) (run' w i)) (w : word) (i : interpreter) :
    Result.le (wordRunBody exec run w i) (wordRunBody exec' run' w i) := by
  unfold wordRunBody
  cases w.native with
  | some f => exact runNative_mono exec exec' run run' he hr f i
  | none => exact runItems_mono exec exec' he _ i

theorem executeWordBody_mono (run run' : word → interpreter → Result)
    (hr : ∀ w i, Result.le (run w i) (run' w i)) (s : String) (i : interpreter) :
    Result.le (executeWordBody run s i) (executeWordBody run' s i) := by
  unfold executeWordBody
  repeat' split
  all_goals first
    | exact Result.le_refl _
    | exact hr _ _

theorem budget_succ (k : Nat) :
    (∀ s i, Result.le (ExecuteWord k s i) (ExecuteWord (k + 1) s i)) ∧
    (∀ w i, Result.le (wordRun k w i) (wordRun (k + 1) w i)) := by
  induction k with
  | zero => exact ⟨fun _ _ => Or.inl rfl, fun _ _ => Or.inl rfl⟩
  | succ k ih =>
    refine ⟨fun s i => ?_, fun w i => ?_⟩
    · exact executeWordBody_mono _ _ ih.2 s i
    · exact wordRunBody_mono _ _ _ _ ih.1 ih.2 w i

theorem ExecuteWord_mono (k m : Nat) (h : k ≤ m) (s : String) (i : interpreter) :
    Result.le (ExecuteWord k s i) (ExecuteWord m s i) := by
  induction m with
  | zero =>
    have : k = 0 := by omega
    rw [this]; exact Result.le_refl _
  | succ m ih =>
    by_cases hk : k = m + 1
    · rw [hk]; exact Result.le_refl _
    · exact Result.le_trans _ _ _ (ih (by omega)) ((budget_succ m).1 s i)

theorem wordRun_mono (k m : Nat) (h : k ≤ m) (w : word) (i : interpreter) :
    Result.le (wordRun k w i) (wordRun m w i) := by
  induction m with
  | zero =>
    have : k = 0 := by omega
    rw [this]; exact Result.le_refl _
  | succ m ih =>
    by_cases hk : k = m + 1
    · rw [hk]; exact Result.le_refl _
    · exact Result.le_trans _ _ _ (ih (by omega)) ((budget_succ m).2 w i)

theorem ExecuteWords_mono (k m : Nat) (h : k ≤ m) (ts : List String) (i : interpreter) :
    Result.le (ExecuteWords k ts i) (ExecuteWords m ts i) := by
  induction ts generalizing i with
  | nil => exact Result.le_refl _
  | cons t ts ih =>
    simp only [ExecuteWords_cons]
    exact Result.andThen_mono _ _ _ _ (ExecuteWord_mono k m h t i) ih

theorem mainLoop_mono (k m : Nat) (h : k ≤ m) (n : Nat) (i : interpreter) :
    Result.le (mainLoop k n i) (mainLoop m n i) := by
  induction n generalizing i with
  | zero => exact Result.le_refl _
  | succ n ih =>
    simp only [mainLoop]
    split
    · exact Result.le_refl _
    · exact Result.andThen_mono _ _ _ _ (ExecuteWord_mono k m h _ _) ih

theorem runProgram_stack_mono (k m : Nat) (h : k ≤ m) (r : List String) (st : Stack)
    (hs : (runProgram k r).dataStack = some st) : (runProgram m r).dataStack = some st := by
  have hle := mainLoop_mono k m h r.length (newInterpreter r)
  unfold runProgram at hs ⊢
  rcases hle with hle | hle
  · rw [hle] at hs; cases hs
  · rw [← hle]; exact hs

/-! ## Comments -/

theorem ExecuteWord_commenting (k : Nat) (t : String) (i : interpreter)
    (hc : i.commenting = true) (ht : t ≠ ")") : ExecuteWord (k + 1) t i = .ok i := by
  rw [ExecuteWord_succ]
  unfold executeWordBody
  by_cases h : t = "("
  · simp only [h, if_true]
    cases i
    simp_all
  · simp [h, hc, ht]

theorem ExecuteWords_commenting (k : Nat) (ts : List String) (i : interpreter)
    (hc : i.commenting = true) (hts : ∀ t ∈ ts, t ≠ ")") : ExecuteWords (k + 1) ts i = .ok i := by
  induction ts with
  | nil => rfl
  | cons t ts ih =>
    rw [ExecuteWords_cons, ExecuteWord_commenting k t i hc (hts t (List.mem_cons_self _ _))]
    exact ih (fun t ht => hts t (List.mem_cons_of_mem _ ht))

/-- Claim C3: from a state that is not commenting, dispatching `(`, then tokens
none of which is `)`, then `)` gives back the very same state; after `(` and the
tokens alone the state is the original one with only `commenting` set, so no
token between the parentheses was run, deferred, collected or rejected. -/
theorem C3_comment_masking (k : Nat) (i : interpreter) (ts : List String)
    (hc : i.commenting = false) (hts : ∀ t ∈ ts, t ≠ ")") :
    ExecuteWords (k + 1) ("(" :: ts) i = .ok { i with commenting := true } ∧
    ExecuteWords (k + 1) ("(" :: (ts ++ [")"])) i = .ok i := by
  have h1 : ExecuteWord (k + 1) "(" i = .ok { i with commenting := true } := by
    rw [ExecuteWord_succ]; simp [executeWordBody]
  have h2 : ExecuteWords (k + 1) ts { i with commenting := true }
      = .ok { i with commenting := true } :=
    ExecuteWords_commenting k ts _ rfl hts
  have h3 : ExecuteWord (k + 1) ")" { i with commenting := true } = .ok i := by
    rw [ExecuteWord_succ]
    have : ¬ (")" = "(") := by decide
    simp only [executeWordBody, this, if_false, if_true]
    cases i
    simp_all
  refine ⟨?_, ?_⟩
  · rw [ExecuteWords_cons, h1]; exact h2
  · rw [ExecuteWords_cons, h1]
    show ExecuteWords (k + 1) (ts ++ [")"]) _ = _
    rw [ExecuteWords_append, h2]
    simp only [Result.andThen]
    rw [ExecuteWords_cons, h3]
    rfl

theorem C3_comment_masking_witness :
    (newInterpreter []).commenting = false ∧ (∀ t ∈ ["dup", "(", "9", ";", "]"], t ≠ ")") ∧
    ExecuteWords 1 ("(" :: (["dup", "(", "9", ";", "]"] ++ [")"])) (newInterpreter [])
      = .ok (newInterpreter []) :=
  ⟨rfl, by decide, (C3_comment_masking 0 (newInterpreter []) ["dup", "(", "9", ";", "]"] rfl
    (by decide)).2⟩

/-! ## Numerals while compiling -/

theorem ParseInt_paren : ParseInt "(" = none := by decide

theorem ExecuteWord_push_numeral (k : Nat) (i : interpreter) (t : String) (n : Int)
    (hc : i.commenting = false) (ha : i.anonymousStack = [])
    (hk : i.words t = none) (hp : ParseInt t = some n) :
    ExecuteWord (k + 1) t i = .ok { i with stack := i.stack ++ [Value.int n] } := by
  have ht : t ≠ "(" := by
    rintro rfl
    rw [ParseInt_paren] at hp
    cases hp
  rw [ExecuteWord_succ]
  simp [executeWordBody, ht, hc, ha, hk, hp, Stack.Push]

/-- Claim C7: in a state that is not commenting, has no literal frame open and is
compiling, a token that is no dictionary key and parses as the base-6 integer
`n` is pushed onto the Data Stack at once; the in-progress body, the dictionary,
the compiling flag and every other field stay as they were. -/
theorem C7_numeral_not_deferred (k : Nat) (i : interpreter) (t : String) (n : Int)
    (hc : i.commenting = false) (ha : i.anonymousStack = []) (_hcomp : i.compiling = true)
    (hk : i.words t = none) (hp : ParseInt t = some n) :
    ExecuteWord (k + 1) t i = .ok { i with stack := i.stack ++ [Value.int n] } :=
  ExecuteWord_push_numeral k i t n hc ha hk hp

theorem C7_numeral_not_deferred_witness :
    ExecuteWord 1 "12" (compilingState "foo" [Value.str "dup"] [Value.int 1])
      = .ok (compilingState "foo" [Value.str "dup"] [Value.int 1, Value.int 8]) :=
  C7_numeral_not_deferred 0 (compilingState "foo" [Value.str "dup"] [Value.int 1]) "12" 8
    rfl rfl rfl rfl (by decide)

/-! ## Built-in words on the Data Stack -/

theorem Stack_Pop_append_two (s : Stack) (a b : Value) :
    Stack.Pop (s ++ [a, b]) = (s ++ [a], b, true) := by
  have : s ++ [a, b] = (s ++ [a]) ++ [b] := by simp
  rw [this, Stack_Pop_append]

/-- Claim C10: on a Data Stack `rest ++ [exec, Integer 0]` the word `if` removes
the condition only: the result is the same state with Data Stack
`rest ++ [exec]`, whatever `exec` is, and neither `ExecuteWord` nor `word.run`
is called (the outcome does not depend on them).  The same holds through
`word.run` on the built-in word, and `[ 1 ] 0 if` leaves the literal in place. -/
theorem C10_if_zero_keeps_exec (exec : String → interpreter → Result)
    (run : word → interpreter → Result) (k : Nat) (i : interpreter) (rest : Stack) (e : Value) :
    runNative exec run Native.if_ { i with stack := rest ++ [e, Value.int 0] }
      = .ok { i with stack := rest ++ [e] } ∧
    wordRun (k + 1) ⟨some Native.if_, [], false⟩ { i with stack := rest ++ [e, Value.int 0] }
      = .ok { i with stack := rest ++ [e] } ∧
    (runProgram (k + 2) ["[", "1", "]", "0", "if"]).dataStack = some [Value.lit [Value.int 1]] := by
  have h : ∀ (exec : String → interpreter → Result) (run : word → interpreter → Result),
      runNative exec run Native.if_ { i with stack := rest ++ [e, Value.int 0] }
        = .ok { i with stack := rest ++ [e] } := by
    intro exec run
    simp [runNative, Stack_Pop_append_two]
  refine ⟨h exec run, ?_, ?_⟩
  · rw [wordRun_succ]
    exact h _ _
  · have p1 : ParseInt "1" = some 1 := by decide
    have p0 : ParseInt "0" = some 0 := by decide
    simp [runProgram, newInterpreter, mainLoop_mk, mainLoop_nil, andThen_ok, ExecuteWord_succ,
      executeWordBody, builtinWords, wordRun_succ, wordRunBody, runNative, p1, p0, pushOnTop,
      AnonStack.PushOnTop, AnonStack.Push, AnonStack.Pop, Stack.Push, Stack.Pop, Result.dataStack]

/-- Claim C9: on a Data Stack `rest ++ [Integer a, Integer b]` the word `+` removes
both and pushes their sum reduced to 64 bits; the reduction is the two's
complement one (an `int64` congruent to the sum modulo `2^64`); `5 3 +` from
the initial state leaves `Integer 8`, which renders as `12`. -/
theorem C9_plus (exec : String → interpreter → Result) (run : word → interpreter → Result)
    (k : Nat) (i : interpreter) (rest : Stack) (a b : Int) :
    runNative exec run Native.plus { i with stack := rest ++ [Value.int a, Value.int b] }
      = .ok { i with stack := rest ++ [Value.int (wrap64 (a + b))] } ∧
    isInt64 (wrap64 (a + b)) ∧
    (wrap64 (a + b) - (a + b)) % 18446744073709551616 = 0 ∧
    (isInt64 (a + b) → wrap64 (a + b) = a + b) ∧
    (runProgram (k + 2) ["5", "3", "+"]).dataStack = some [Value.int 8] ∧
    stringify (Value.int 8) = "12" := by
  refine ⟨?_, ?_, ?_, ?_, ?_, by decide⟩
  · simp [runNative, Stack_Pop_append_two, Stack_Pop_append, Stack.Push, add_comm]
  · simp only [isInt64, minInt64, maxInt64, wrap64]; omega
  · simp only [wrap64]; omega
  · simp only [isInt64, minInt64, maxInt64, wrap64]; omega
  · have p5 : ParseInt "5" = some 5 := by decide
    have p3 : ParseInt "3" = some 3 := by decide
    have w8 : wrap64 8 = 8 := by decide
    simp [runProgram, newInterpreter, mainLoop_mk, mainLoop_nil, andThen_ok, ExecuteWord_succ,
      executeWordBody, builtinWords, wordRun_succ, wordRunBody, runNative, p5, p3, w8,
      Stack.Push, Stack.Pop, Result.dataStack]

theorem C9_plus_witness :
    isInt64 (maxInt64 + minInt64) ∧ wrap64 (maxInt64 + minInt64) = maxInt64 + minInt64 ∧
    wrap64 (maxInt64 + 1) = minInt64 :=
  ⟨by decide,
   (C9_plus (fun _ _ => .fatal) (fun _ _ => .fatal) 0 (newInterpreter []) [] maxInt64 minInt64).2.2.2.1
     (by decide),
   by decide⟩

/-! ## Structural equality -/

mutual
theorem deepEqual_iff : ∀ a b : Value, deepEqual a b = true ↔ a = b
  | .int a, .int b => by simp [deepEqual]
  | .str a, .str b => by simp [deepEqual]
  | .lit a, .lit b => by simp [deepEqual, deepEqualItems_iff a b]
  | .ref a, .ref b => by simp [deepEqual]
  | .int _, .str _ => by simp [deepEqual]
  | .int _, .lit _ => by simp [deepEqual]
  | .int _, .ref _ => by simp [deepEqual]
  | .str _, .int _ => by simp [deepEqual]
  | .str _, .lit _ => by simp [deepEqual]
  | .str _, .ref _ => by simp [deepEqual]
  | .lit _, .int _ => by simp [deepEqual]
  | .lit _, .str _ => by simp [deepEqual]
  | .lit _, .ref _ => by simp [deepEqual]
  | .ref _, .int _ => by simp [deepEqual]
  | .ref _, .str _ => by simp [deepEqual]
  | .ref _, .lit _ => by simp [deepEqual]
theorem deepEqualItems_iff : ∀ as bs : List Value, deepEqualItems as bs = true ↔ as = bs
  | [], [] => by simp [deepEqualItems]
  | [], _ :: _ => by simp [deepEqualItems]
  | _ :: _, [] => by simp [deepEqualItems]
  | a :: as, b :: bs => by simp [deepEqualItems, deepEqual_iff a b, deepEqualItems_iff as bs]
end

theorem runNative_eq (exec : String → interpreter → Result) (run : word → interpreter → Result)
    (i : interpreter) (rest : Stack) (a b : Value) :
    runNative exec run Native.eq { i with stack := rest ++ [a, b] }
      = .ok { i with stack := rest ++ [Value.int (if a = b then 1 else 0)] } := by
  simp only [runNative, Stack_Pop_append_two, Stack_Pop_append, Stack.Push]
  by_cases h : a = b
  · have : deepEqual b a = true := (deepEqual_iff b a).2 h.symm
    rw [if_pos this, if_pos h]
  · have : ¬ deepEqual b a = true := fun hd => h ((deepEqual_iff b a).1 hd).symm
    simp [this, h]

/-- Claim C8: on a Data Stack whose top two values are `a` and `b` the word `=`
removes both and pushes `Integer 1` when the two values are equal as values
(same kind and equal contents, recursively through literals; references by
name) and `Integer 0` otherwise, the rest of the stack and of the state being
kept.  An integer is never equal to a word token or to a literal, in either
order; `[ 1 2 ] [ 1 2 ] =` leaves 1 and `[ 1 2 ] [ 1 3 ] =` leaves 0. -/
theorem C8_equality_word (exec : String → interpreter → Result)
    (run : word → interpreter → Result) (k : Nat) (i : interpreter) (rest : Stack)
    (a b : Value) (n : Int) (s : String) (l : List Value) :
    runNative exec run Native.eq { i with stack := rest ++ [a, b] }
      = .ok { i with stack := rest ++ [Value.int (if a = b then 1 else 0)] } ∧
    runNative exec run Native.eq { i with stack := rest ++ [Value.int n, Value.str s] }
      = .ok { i with stack := rest ++ [Value.int 0] } ∧
    runNative exec run Native.eq { i with stack := rest ++ [Value.str s, Value.int n] }
      = .ok { i with stack := rest ++ [Value.int 0] } ∧
    runNative exec run Native.eq { i with stack := rest ++ [Value.int n, Value.lit l] }
      = .ok { i with stack := rest ++ [Value.int 0] } ∧
    runNative exec run Native.eq { i with stack := rest ++ [Value.lit l, Value.int n] }
      = .ok { i with stack := rest ++ [Value.int 0] } ∧
    (runProgram (k + 2) ["[", "1", "2", "]", "[", "1", "2", "]", "="]).dataStack
      = some [Value.int 1] ∧
    (runProgram (k + 2) ["[", "1", "2", "]", "[", "1", "3", "]", "="]).dataStack
      = some [Value.int 0] := by
  have p1 : ParseInt "1" = some 1 := by decide
  have p2 : ParseInt "2" = some 2 := by decide
  have p3 : ParseInt "3" = some 3 := by decide
  refine ⟨runNative_eq exec run i rest a b, ?_, ?_, ?_, ?_, ?_, ?_⟩
  · rw [runNative_eq]; simp
  · rw [runNative_eq]; simp
  · rw [runNative_eq]; simp
  · rw [runNative_eq]; simp
  · simp [runProgram, newInterpreter, mainLoop_mk, mainLoop_nil, andThen_ok, ExecuteWord_succ,
      executeWordBody, builtinWords, wordRun_succ, wordRunBody, runNative, p1, p2, pushOnTop,
      AnonStack.PushOnTop, AnonStack.Push, AnonStack.Pop, Stack.Push, Stack.Pop, Result.dataStack,
      deepEqual, deepEqualItems]
  · simp [runProgram, newInterpreter, mainLoop_mk, mainLoop_nil, andThen_ok, ExecuteWord_succ,
      executeWordBody, builtinWords, wordRun_succ, wordRunBody, runNative, p1, p2, p3, pushOnTop,
      AnonStack.PushOnTop, AnonStack.Push, AnonStack.Pop, Stack.Push, Stack.Pop, Result.dataStack,
      deepEqual, deepEqualItems]

/-! ## Tokens inside a literal -/

theorem ExecuteWord_known_in_literal (k : Nat) (i : interpreter) (t : String) (w : word)
    (frames : AnonStack) (top : Stack)
    (hc : i.commenting = false) (ha : i.anonymousStack = frames ++ [top])
    (hw : i.words t = some w) (hi : w.immediate = false) (ht : t ≠ "(") :
    ExecuteWord (k + 1) t i
      = .ok { i with anonymousStack := frames ++ [top ++ [tokenValue t]] } := by
  rw [ExecuteWord_succ]
  unfold executeWordBody
  simp only [ht, if_false, hc, Bool.false_eq_true, ha, hw, hi, Bool.false_and]
  have hne : (!(frames ++ [top]).isEmpty) = true := by simp
  simp only [hne, if_true, tokenValue]
  cases ParseInt t <;> simp [pushOnTop, AnonStack.PushOnTop, Stack.Push, ha, hc]

/-- Claim C5, as amended: in a state that is not commenting and has a literal frame
open, a token other than `(` that names a known non-immediate word is not run:
the integer it parses to, or else its own name, is appended to the top frame and
nothing else changes.  The outcome does not depend on the word found, and at
budget 1, where any call of `word.run` would time out, it is still reached. -/
theorem C5_known_word_in_literal (k : Nat) (i : interpreter) (t : String) (w : word)
    (frames : AnonStack) (top : Stack)
    (hc : i.commenting = false) (ha : i.anonymousStack = frames ++ [top])
    (hw : i.words t = some w) (hi : w.immediate = false) (ht : t ≠ "(") :
    ExecuteWord (k + 1) t i
      = .ok { i with anonymousStack := frames ++ [top ++ [tokenValue t]] } :=
  ExecuteWord_known_in_literal k i t w frames top hc ha hw hi ht

/-- The token `[` itself, dispatched inside the literal opened by `[ dup`. -/
theorem C5_known_word_in_literal_witness :
    ExecuteWord 1 "[" { newInterpreter [] with anonymousStack := [[Value.str "dup"]] }
      = .ok { newInterpreter [] with anonymousStack := [[Value.str "dup", Value.str "["]] } :=
  C5_known_word_in_literal 0 { newInterpreter [] with anonymousStack := [[Value.str "dup"]] }
    "[" ⟨some Native.lbracket, [], false⟩ [] [Value.str "dup"] rfl rfl rfl rfl (by decide)

/-- Claim C5 as stated fails for the token `(`: after `: ( ; [` the
token `(` names a known non-immediate word, the state is not commenting and a
literal frame is open, yet dispatching `(` appends nothing to the frame and
switches commenting on. -/
theorem C5_counterexample :
    runProgram 2 [":", "(", ";", "["] = .ok parenLiteralState ∧
    parenLiteralState.commenting = false ∧
    parenLiteralState.anonymousStack = [[]] ∧
    parenLiteralState.words "(" = some ⟨none, [], false⟩ ∧
    ParseInt "(" = none ∧
    ExecuteWord 2 "(" parenLiteralState = .ok { parenLiteralState with commenting := true } ∧
    ExecuteWord 2 "(" parenLiteralState
      ≠ .ok { parenLiteralState with anonymousStack := [[Value.str "("]] } := by
  refine ⟨?_, rfl, rfl, rfl, by decide, ?_, ?_⟩
  · simp [runProgram, newInterpreter, mainLoop_mk, mainLoop_nil, andThen_ok, ExecuteWord_succ,
      executeWordBody, builtinWords, wordRun_succ, wordRunBody, runNative, ReadWord,
      AnonStack.Push, parenLiteralState, mapSet]
  · simp [ExecuteWord_succ, executeWordBody]
  · simp [ExecuteWord_succ, executeWordBody, parenLiteralState]

/-! ## Definitions -/

theorem ExecuteWord_defer (k : Nat) (i : interpreter) (t : String) (w : word)
    (hc : i.commenting = false) (ha : i.anonymousStack = []) (hcomp : i.compiling = true)
    (hw : i.words t = some w) (hi : w.immediate = false) (hp : ParseInt t = none)
    (ht : t ≠ "(") :
    ExecuteWord (k + 1) t i
      = .ok { i with currentlyCompiling := i.currentlyCompiling ++ [Value.str t] } := by
  rw [ExecuteWord_succ]
  simp [executeWordBody, ht, hc, ha, hw, hi, hcomp, hp, Stack.Push]

theorem ExecuteWords_defer (k : Nat) (ts : List String) (i : interpreter)
    (hc : i.commenting = false) (ha : i.anonymousStack = []) (hcomp : i.compiling = true)
    (hts : ∀ t ∈ ts, t ≠ "(" ∧ ParseInt t = none ∧ ∃ w, i.words t = some w ∧ w.immediate = false) :
    ExecuteWords (k + 1) ts i
      = .ok { i with currentlyCompiling := i.currentlyCompiling ++ ts.map Value.str } := by
  induction ts generalizing i with
  | nil => simp [ExecuteWords]
  | cons t ts ih =>
    obtain ⟨ht, hp, w, hw, hi⟩ := hts t (List.mem_cons_self _ _)
    rw [ExecuteWords_cons, ExecuteWord_defer k i t w hc ha hcomp hw hi hp ht, andThen_ok]
    have h := ih { i with currentlyCompiling := i.currentlyCompiling ++ [Value.str t] } hc ha hcomp
      (fun u hu => hts u (List.mem_cons_of_mem _ hu))
    rw [h]
    simp

theorem ExecuteWord_colon (k : Nat) (i : interpreter) (name : String) (r : List String)
    (hc : i.commenting = false) (hcomp : i.compiling = false) (ha : i.anonymousStack = [])
    (hr : i.reader = name :: r)
    (hcolon : i.words ":" = some ⟨some Native.colon, [], false⟩) :
    ExecuteWord (k + 2) ":" i
      = .ok { i with reader := r, currentlyCompilingWord := name, compiling := true } := by
  rw [ExecuteWord_succ]
  simp [executeWordBody, hc, ha, hcolon, hcomp, wordRun_succ, wordRunBody, runNative, ReadWord, hr]

theorem ExecuteWord_semicolon (k : Nat) (i : interpreter)
    (hc : i.commenting = false) (ha : i.anonymousStack = [])
    (hsemi : i.words ";" = some ⟨some Native.semicolon, [], true⟩) :
    ExecuteWord (k + 2) ";" i
      = .ok { i with
          words := mapSet i.words i.currentlyCompilingWord ⟨none, i.currentlyCompiling, false⟩
          currentlyCompiling := []
          currentlyCompilingWord := ""
          compiling := false } := by
  rw [ExecuteWord_succ]
  simp [executeWordBody, hc, ha, hsemi, wordRun_succ, wordRunBody, runNative]

theorem definition_effect (k : Nat) (i : interpreter) (name : String) (r : List String)
    (ts : List String)
    (hc : i.commenting = false) (hcomp : i.compiling = false) (ha : i.anonymousStack = [])
    (hb : i.currentlyCompiling = []) (hr : i.reader = name :: r)
    (hcolon : i.words ":" = some ⟨some Native.colon, [], false⟩)
    (hsemi : i.words ";" = some ⟨some Native.semicolon, [], true⟩)
    (hts : ∀ t ∈ ts, t ≠ "(" ∧ ParseInt t = none ∧ ∃ w, i.words t = some w ∧ w.immediate = false) :
    ExecuteWords (k + 2) (":" :: (ts ++ [";"])) i
      = .ok (afterDefinition i name r (ts.map Value.str)) := by
  have h1 := ExecuteWords_defer (k + 1) ts
    { i with reader := r, currentlyCompilingWord := name, compiling := true } hc ha rfl hts
  have h2 := ExecuteWord_semicolon k
    { i with reader := r, currentlyCompilingWord := name, compiling := true,
             currentlyCompiling := i.currentlyCompiling ++ ts.map Value.str } hc ha hsemi
  rw [ExecuteWords_cons, ExecuteWord_colon k i name r hc hcomp ha hr hcolon, andThen_ok,
    ExecuteWords_append, h1, andThen_ok, ExecuteWords_cons, h2, andThen_ok]
  simp [ExecuteWords, afterDefinition, hb]

/-- Claim C6, as amended: from a normal state with an empty in-progress body, for
every name and every sequence of tokens, none of them `(`, that name known
non-immediate words and do not parse as numerals, dispatching `:` (which reads
the name from the token source), the tokens and `;` runs none of them and ends
in the starting state changed only in this: the name is consumed from the token
source, the dictionary maps the name to a compiled non-immediate word whose
body is the tokens in order, every other entry being kept, and the compiling
flag, pending name and in-progress body are cleared. -/
theorem C6_definition (k : Nat) (i : interpreter) (name : String) (r : List String)
    (ts : List String)
    (hc : i.commenting = false) (hcomp : i.compiling = false) (ha : i.anonymousStack = [])
    (hb : i.currentlyCompiling = []) (hr : i.reader = name :: r)
    (hcolon : i.words ":" = some ⟨some Native.colon, [], false⟩)
    (hsemi : i.words ";" = some ⟨some Native.semicolon, [], true⟩)
    (hts : ∀ t ∈ ts, t ≠ "(" ∧ ParseInt t = none ∧ ∃ w, i.words t = some w ∧ w.immediate = false) :
    ExecuteWords (k + 2) (":" :: (ts ++ [";"])) i
      = .ok { i with
          reader := r
          words := mapSet i.words name ⟨none, ts.map Value.str, false⟩
          currentlyCompiling := []
          currentlyCompilingWord := ""
          compiling := false } ∧
    mapSet i.words name ⟨none, ts.map Value.str, false⟩ name
      = some ⟨none, ts.map Value.str, false⟩ ∧
    (∀ key, key ≠ name →
      mapSet i.words name ⟨none, ts.map Value.str, false⟩ key = i.words key) := by
  refine ⟨definition_effect k i name r ts hc hcomp ha hb hr hcolon hsemi hts, ?_, ?_⟩
  · simp [mapSet]
  · intro key hkey
    simp [mapSet, hkey]

theorem C6_definition_witness :
    ExecuteWords 2 (":" :: (["dup", "+", "print"] ++ [";"])) (newInterpreter ["double", "5"])
      = .ok { newInterpreter ["5"] with
          words := mapSet builtinWords "double"
            ⟨none, [Value.str "dup", Value.str "+", Value.str "print"], false⟩ } :=
  (C6_definition 0 (newInterpreter ["double", "5"]) "double" ["5"] ["dup", "+", "print"]
    rfl rfl rfl rfl rfl rfl rfl (by decide)).1

/-- Claim C6 as stated fails when `(` is among the tokens: after `: ( ;`
the token `(` names a known non-immediate word that does not parse as a
numeral, yet dispatching `:` (reading `foo`), `(`, `dup`, `;` defines nothing:
`foo` stays undefined, compiling stays on and commenting is switched on. -/
theorem C6_counterexample :
    runProgram 2 [":", "(", ";"] = .ok { parenDefinedState with reader := [] } ∧
    parenDefinedState.words "(" = some ⟨none, [], false⟩ ∧
    parenDefinedState.words "dup" = some ⟨some Native.dup, [], false⟩ ∧
    ParseInt "(" = none ∧ ParseInt "dup" = none ∧
    ExecuteWords 2 (":" :: (["(", "dup"] ++ [";"])) parenDefinedState
      = .ok { parenDefinedState with
          reader := [], currentlyCompilingWord := "foo", compiling := true, commenting := true } ∧
    parenDefinedState.words "foo" = none := by
  refine ⟨?_, rfl, rfl, by decide, by decide, ?_, rfl⟩
  · simp [runProgram, newInterpreter, mainLoop_mk, mainLoop_nil, andThen_ok, ExecuteWord_succ,
      executeWordBody, builtinWords, wordRun_succ, wordRunBody, runNative, ReadWord,
      parenDefinedState, mapSet]
  · simp [ExecuteWords, andThen_ok, ExecuteWord_succ, executeWordBody, builtinWords,
      wordRun_succ, wordRunBody, runNative, ReadWord, parenDefinedState, mapSet]

/-! ## Literals of integers -/

theorem ne_of_ParseInt (s t : String) (n : Int) (hp : ParseInt s = some n)
    (ht : ParseInt t = none) : s ≠ t := by
  rintro rfl
  rw [ht] at hp
  cases hp

theorem builtinWords_of_ParseInt (s : String) (n : Int) (hp : ParseInt s = some n) :
    builtinWords s = none := by
  simp only [builtinWords,
    if_neg (ne_of_ParseInt s "print" n hp (by decide)),
    if_neg (ne_of_ParseInt s "stack" n hp (by decide)),
    if_neg (ne_of_ParseInt s ":" n hp (by decide)),
    if_neg (ne_of_ParseInt s ";" n hp (by decide)),
    if_neg (ne_of_ParseInt s "+" n hp (by decide)),
    if_neg (ne_of_ParseInt s "go" n hp (by decide)),
    if_neg (ne_of_ParseInt s "sleep" n hp (by decide)),
    if_neg (ne_of_ParseInt s "&" n hp (by decide)),
    if_neg (ne_of_ParseInt s "[" n hp (by decide)),
    if_neg (ne_of_ParseInt s "]" n hp (by decide)),
    if_neg (ne_of_ParseInt s "dup" n hp (by decide)),
    if_neg (ne_of_ParseInt s "run" n hp (by decide)),
    if_neg (ne_of_ParseInt s "pop" n hp (by decide)),
    if_neg (ne_of_ParseInt s "if" n hp (by decide)),
    if_neg (ne_of_ParseInt s "=" n hp (by decide)),
    if_neg (ne_of_ParseInt s "!" n hp (by decide))]

theorem builtinWords_FormatInt (n : Int) (h : isInt64 n) : builtinWords (FormatInt n) = none :=
  builtinWords_of_ParseInt _ n (ParseInt_FormatInt n h)

theorem FormatInt_ne_paren (n : Int) (h : isInt64 n) : FormatInt n ≠ "(" := by
  intro heq
  have hp := ParseInt_FormatInt n h
  rw [heq, ParseInt_paren] at hp
  cases hp

theorem ExecuteWord_numeral_in_literal (k : Nat) (i : interpreter) (n : Int) (top : Stack)
    (hc : i.commenting = false) (ha : i.anonymousStack = [top]) (hw : i.words = builtinWords)
    (h : isInt64 n) :
    ExecuteWord (k + 1) (FormatInt n) i
      = .ok { i with anonymousStack := [top ++ [Value.int n]] } := by
  rw [ExecuteWord_succ]
  simp [executeWordBody, FormatInt_ne_paren n h, hc, ha, hw, builtinWords_FormatInt n h,
    ParseInt_FormatInt n h, pushOnTop, AnonStack.PushOnTop, Stack.Push]

theorem ExecuteWords_numerals_in_literal (k : Nat) (ns : List Int) (i : interpreter) (top : Stack)
    (hc : i.commenting = false) (ha : i.anonymousStack = [top]) (hw : i.words = builtinWords)
    (h : ∀ n ∈ ns, isInt64 n) :
    ExecuteWords (k + 1) (ns.map (fun n => stringify (Value.int n))) i
      = .ok { i with anonymousStack := [top ++ ns.map Value.int] } := by
  induction ns generalizing i top with
  | nil =>
    simp only [List.map_nil, ExecuteWords, List.append_nil]
    rw [← ha]
  | cons n ns ih =>
    simp only [List.map_cons, ExecuteWords_cons, stringify]
    rw [ExecuteWord_numeral_in_literal k i n top hc ha hw (h n (List.mem_cons_self _ _)),
      andThen_ok]
    have h2 := ih { i with anonymousStack := [top ++ [Value.int n]] } (top ++ [Value.int n])
      hc rfl hw (fun m hm => h m (List.mem_cons_of_mem _ hm))
    simp only [stringify] at h2
    rw [h2]
    simp

theorem ExecuteWord_numeral (k : Nat) (i : interpreter) (n : Int)
    (hc : i.commenting = false) (ha : i.anonymousStack = []) (hw : i.words = builtinWords)
    (h : isInt64 n) :
    ExecuteWord (k + 1) (FormatInt n) i = .ok { i with stack := i.stack ++ [Value.int n] } := by
  rw [ExecuteWord_succ]
  simp [executeWordBody, FormatInt_ne_paren n h, hc, ha, hw, builtinWords_FormatInt n h,
    ParseInt_FormatInt n h, Stack.Push]

theorem runItems_numerals (k : Nat) (ns : List Int) (i : interpreter)
    (hc : i.commenting = false) (ha : i.anonymousStack = []) (hw : i.words = builtinWords)
    (h : ∀ n ∈ ns, isInt64 n) :
    runItems (ExecuteWord (k + 1)) (ns.map Value.int) i
      = .ok { i with stack := i.stack ++ ns.map Value.int } := by
  induction ns generalizing i with
  | nil => simp [runItems]
  | cons n ns ih =>
    simp only [List.map_cons, runItems, stringify]
    rw [ExecuteWord_numeral k i n hc ha hw (h n (List.mem_cons_self _ _)), andThen_ok]
    have h2 := ih { i with stack := i.stack ++ [Value.int n] } hc ha hw
      (fun m hm => h m (List.mem_cons_of_mem _ hm))
    rw [h2]
    simp

/-- Claim C4: from a normal state whose dictionary is the built-in one, for every
list of 64-bit integers, dispatching `[`, their base-6 renderings and `]` pushes
exactly one value, the literal holding these integers in order, and leaves no
literal frame open; dispatching `run` next removes the literal and pushes the
integers in order.  Nothing else in the state changes. -/
theorem C4_literal_then_run (k : Nat) (i : interpreter) (ns : List Int)
    (hc : i.commenting = false) (hcomp : i.compiling = false) (ha : i.anonymousStack = [])
    (hw : i.words = builtinWords) (h : ∀ n ∈ ns, isInt64 n) :
    ExecuteWords (k + 2) ("[" :: (ns.map (fun n => stringify (Value.int n)) ++ ["]"])) i
      = .ok { i with stack := i.stack ++ [Value.lit (ns.map Value.int)], anonymousStack := [] } ∧
    ExecuteWords (k + 3) ("[" :: (ns.map (fun n => stringify (Value.int n)) ++ ["]", "run"])) i
      = .ok { i with stack := i.stack ++ ns.map Value.int, anonymousStack := [] } := by
  have open_ : ∀ m, ExecuteWord (m + 2) "[" i = .ok { i with anonymousStack := [[]] } := by
    intro m
    rw [ExecuteWord_succ]
    simp [executeWordBody, hc, ha, hw, hcomp, builtinWords, wordRun_succ, wordRunBody, runNative,
      AnonStack.Push]
  have mid : ∀ m, ExecuteWords (m + 1) (ns.map (fun n => stringify (Value.int n)))
      { i with anonymousStack := [[]] } = .ok { i with anonymousStack := [ns.map Value.int] } := by
    intro m
    have := ExecuteWords_numerals_in_literal m ns { i with anonymousStack := [[]] } [] hc rfl hw h
    simpa using this
  have close : ∀ m, ExecuteWord (m + 2) "]" { i with anonymousStack := [ns.map Value.int] }
      = .ok { i with stack := i.stack ++ [Value.lit (ns.map Value.int)], anonymousStack := [] } := by
    intro m
    rw [ExecuteWord_succ]
    simp [executeWordBody, hc, hw, builtinWords, wordRun_succ, wordRunBody, runNative,
      AnonStack.Pop, Stack.Push]
  have run_ : ExecuteWord (k + 3) "run"
      { i with stack := i.stack ++ [Value.lit (ns.map Value.int)], anonymousStack := [] }
      = .ok { i with stack := i.stack ++ ns.map Value.int, anonymousStack := [] } := by
    have h2 : runItems (ExecuteWord (k + 1)) (ns.map Value.int) { i with anonymousStack := [] }
        = .ok { i with stack := i.stack ++ ns.map Value.int, anonymousStack := [] } :=
      runItems_numerals k ns { i with anonymousStack := [] } hc rfl hw h
    simp only [hw, hc, hcomp] at h2
    rw [ExecuteWord_succ]
    simp [executeWordBody, hc, hw, hcomp, builtinWords, wordRun_succ, wordRunBody, runNative,
      Stack_Pop_append, runValue, h2]
  refine ⟨?_, ?_⟩
  · rw [ExecuteWords_cons, open_ k, andThen_ok, ExecuteWords_append, mid (k + 1), andThen_ok,
      ExecuteWords_cons, close k, andThen_ok]
    rfl
  · have e : ns.map (fun n => stringify (Value.int n)) ++ ["]", "run"]
        = (ns.map (fun n => stringify (Value.int n)) ++ ["]"]) ++ ["run"] := by simp
    rw [ExecuteWords_cons, open_ (k + 1), andThen_ok, e, ExecuteWords_append, ExecuteWords_append,
      mid (k + 2), andThen_ok, ExecuteWords_cons, close (k + 1), andThen_ok]
    simp only [ExecuteWords, andThen_ok]
    rw [run_]
    rfl

theorem C4_literal_then_run_witness :
    ExecuteWords 3 ("[" :: ([1, 2, 3, -8].map (fun n => stringify (Value.int n)) ++ ["]", "run"]))
      (newInterpreter [])
      = .ok { newInterpreter [] with
          stack := [] ++ [1, 2, 3, -8].map Value.int, anonymousStack := [] } :=
  (C4_literal_then_run 0 (newInterpreter []) [1, 2, 3, -8] rfl rfl rfl rfl (by decide)).2

/-! ## Compiled words -/

theorem andThen_ok_right (r : Result) : r.andThen Result.ok = r := by
  cases r <;> rfl

theorem runItems_str (exec : String → interpreter → Result) (ts : List String) (i : interpreter) :
    runItems exec (ts.map Value.str) i
      = List.foldl (fun (r : Result) t => r.andThen (exec t)) (.ok i) ts := by
  induction ts generalizing i with
  | nil => rfl
  | cons t ts ih =>
    simp only [List.map_cons, runItems, stringify, List.foldl_cons, andThen_ok]
    cases exec t i with
    | ok j => rw [andThen_ok, ih]
    | fatal =>
      rw [andThen_fatal]
      clear ih
      induction ts with
      | nil => rfl
      | cons u us ih2 => simpa [andThen_fatal] using ih2
    | timeout =>
      rw [andThen_timeout]
      clear ih
      induction ts with
      | nil => rfl
      | cons u us ih2 => simpa [andThen_timeout] using ih2

theorem ExecuteWords_foldl (k : Nat) (ts : List String) (i : interpreter) :
    ExecuteWords k ts i
      = List.foldl (fun (r : Result) t => r.andThen (ExecuteWord k t)) (.ok i) ts := by
  induction ts generalizing i with
  | nil => rfl
  | cons t ts ih =>
    simp only [ExecuteWords_cons, List.foldl_cons, andThen_ok]
    cases ExecuteWord k t i with
    | ok j => rw [andThen_ok, ih]
    | fatal =>
      rw [andThen_fatal]
      clear ih
      induction ts with
      | nil => rfl
      | cons u us ih2 => simpa [andThen_fatal] using ih2
    | timeout =>
      rw [andThen_timeout]
      clear ih
      induction ts with
      | nil => rfl
      | cons u us ih2 => simpa [andThen_timeout] using ih2

theorem runItems_str_eq_ExecuteWords (k : Nat) (ts : List String) (i : interpreter) :
    runItems (ExecuteWord k) (ts.map Value.str) i = ExecuteWords k ts i := by
  rw [runItems_str, ExecuteWords_foldl]

theorem ExecuteWord_compiled (k : Nat) (i : interpreter) (name : String) (body : Stack)
    (hc : i.commenting = false) (hcomp : i.compiling = false) (ha : i.anonymousStack = [])
    (hname : name ≠ "(") (hw : i.words name = some ⟨none, body, false⟩) :
    ExecuteWord (k + 2) name i = runItems (ExecuteWord k) body i := by
  rw [ExecuteWord_succ]
  simp [executeWordBody, hname, hc, ha, hw, hcomp, wordRun_succ, wordRunBody]

theorem call_after_definition (k : Nat) (i : interpreter) (name : String) (r : List String)
    (body : List String)
    (hc : i.commenting = false) (hcomp : i.compiling = false) (ha : i.anonymousStack = [])
    (hb : i.currentlyCompiling = []) (hr : i.reader = name :: r)
    (hcolon : i.words ":" = some ⟨some Native.colon, [], false⟩)
    (hsemi : i.words ";" = some ⟨some Native.semicolon, [], true⟩)
    (hname : name ≠ "(")
    (hts : ∀ t ∈ body, t ≠ "(" ∧ ParseInt t = none ∧
      ∃ w, i.words t = some w ∧ w.immediate = false) :
    ExecuteWords (k + 2) (":" :: (body ++ [";", name])) i
      = ExecuteWords k body (afterDefinition i name r (body.map Value.str)) := by
  have e : ":" :: (body ++ [";", name]) = (":" :: (body ++ [";"])) ++ [name] := by simp
  rw [e, ExecuteWords_append,
    definition_effect k i name r body hc hcomp ha hb hr hcolon hsemi hts, andThen_ok,
    ExecuteWords_cons]
  have h := ExecuteWord_compiled k (afterDefinition i name r (body.map Value.str)) name
    (body.map Value.str) hc rfl ha hname (by simp [afterDefinition, mapSet])
  rw [h, runItems_str_eq_ExecuteWords]
  exact andThen_ok_right _

theorem runNative_plain (exec exec' : String → interpreter → Result)
    (run run' : word → interpreter → Result) (f : Native) (hf : f.plain = true)
    (rd : List String) (w : String → Option word) (c : String) (j : interpreter) :
    runNative exec run f (retable rd w c j)
      = (runNative exec' run' f j).map (retable rd w c) ∧
    ∀ j', runNative exec' run' f j = .ok j' →
      j'.words = j.words ∧ j'.reader = j.reader ∧
      j'.currentlyCompilingWord = j.currentlyCompilingWord := by
  cases f <;> simp only [Native.plain, Bool.false_eq_true] at hf
  all_goals simp only [runNative, retable]
  all_goals refine ⟨?_, ?_⟩
  all_goals repeat' split
  all_goals simp_all [Result.map, retable]

theorem ExecuteWord_plain_retable (k : Nat) (j : interpreter) (t : String) (f : Native)
    (bd : Stack) (rd : List String) (w : String → Option word) (c : String)
    (ht : t ≠ "(") (hp : ParseInt t = none) (hf : f.plain = true)
    (hj : j.words t = some ⟨some f, bd, false⟩) (hw : w t = some ⟨some f, bd, false⟩) :
    ExecuteWord (k + 2) t (retable rd w c j)
      = (ExecuteWord (k + 2) t j).map (retable rd w c) ∧
    ∀ j', ExecuteWord (k + 2) t j = .ok j' → j'.words = j.words := by
  have hn := runNative_plain (ExecuteWord k) (ExecuteWord k) (wordRun k) (wordRun k) f hf rd w c j
  simp only [ExecuteWord_succ, executeWordBody, ht, if_false, hj, hp, wordRun_succ, wordRunBody]
  have e1 : (retable rd w c j).commenting = j.commenting := rfl
  have e2 : (retable rd w c j).anonymousStack = j.anonymousStack := rfl
  have e3 : (retable rd w c j).compiling = j.compiling := rfl
  have e4 : (retable rd w c j).words = w := rfl
  simp only [e1, e2, e3, e4, hw]
  by_cases hc : j.commenting = true
  · simp only [hc, if_true]
    by_cases h2 : t = ")"
    · simp only [h2, if_true, Result.map]
      refine ⟨?_, fun j' hj' => by cases hj'; rfl⟩
      trivial
    · simp only [h2, if_false, Result.map]
      refine ⟨?_, fun j' hj' => by cases hj'; rfl⟩
      trivial
  · simp only [hc, if_false]
    by_cases ha : (!j.anonymousStack.isEmpty) = true
    · simp only [ha, if_true, Bool.false_and, Bool.false_eq_true, if_false, pushOnTop]
      have e5 : (retable rd w c j).anonymousStack = j.anonymousStack := rfl
      rw [e5]
      cases AnonStack.PushOnTop j.anonymousStack (Value.str t) with
      | none => exact ⟨rfl, fun j' hj' => by cases hj'⟩
      | some a => exact ⟨rfl, fun j' hj' => by cases hj'; rfl⟩
    · simp only [ha, if_false, Bool.false_eq_true]
      by_cases hcomp : j.compiling = true
      · simp only [hcomp, Bool.not_true, Bool.or_false, Bool.false_eq_true, if_false, Result.map]
        exact ⟨rfl, fun j' hj' => by cases hj'; rfl⟩
      · have hcomp2 : j.compiling = false := by simpa using hcomp
        simp only [hcomp2, Bool.not_false, Bool.true_or, if_true]
        exact ⟨hn.1, fun j' hj' => (hn.2 j' hj').1⟩

theorem Result.map_andThen (g : interpreter → interpreter) (r : Result)
    (f f' : interpreter → Result) (h : ∀ j, r = .ok j → f' (g j) = (f j).map g) :
    (r.map g).andThen f' = (r.andThen f).map g := by
  cases r with
  | ok j => exact h j rfl
  | fatal => rfl
  | timeout => rfl

theorem ExecuteWords_plain_retable (k : Nat) (ts : List String) (j : interpreter)
    (rd : List String) (w : String → Option word) (c : String)
    (hts : ∀ t ∈ ts, t ≠ "(" ∧ ParseInt t = none ∧ ∃ f bd, f.plain = true ∧
      j.words t = some ⟨some f, bd, false⟩ ∧ w t = some ⟨some f, bd, false⟩) :
    ExecuteWords (k + 2) ts (retable rd w c j)
      = (ExecuteWords (k + 2) ts j).map (retable rd w c) := by
  induction ts generalizing j with
  | nil => rfl
  | cons t ts ih =>
    obtain ⟨ht, hp, f, bd, hf, hj, hw⟩ := hts t (List.mem_cons_self _ _)
    have hstep := ExecuteWord_plain_retable k j t f bd rd w c ht hp hf hj hw
    rw [ExecuteWords_cons, ExecuteWords_cons, hstep.1]
    apply Result.map_andThen
    intro j' hj'
    apply ih
    intro u hu
    obtain ⟨hu1, hu2, g, bd2, hg, hgj, hgw⟩ := hts u (List.mem_cons_of_mem _ hu)
    refine ⟨hu1, hu2, g, bd2, hg, ?_, hgw⟩
    rw [hstep.2 j' hj']
    exact hgj

theorem Result.dataStack_map_retable (rd : List String) (w : String → Option word) (c : String)
    (r : Result) : (r.map (retable rd w c)).dataStack = r.dataStack := by
  cases r <;> rfl

/-- Claim C2, as amended.  From a normal state with an empty in-progress body in
which `:` and `;` are the built-in words, for every name other than `(` and
every body of tokens that name known non-immediate words, none of them `(` and
none parsing as a numeral: dispatching `: name body ;` and then `name` has the
very outcome (state, hence Data Stack, or fatal stop) of dispatching the tokens
of the body directly from the state reached right after the definition.  When
moreover every token of the body differs from the name and names a built-in
word that works on the Data Stack, the literal frames and the output only, the
Data Stack is the one reached by dispatching the body directly from the
starting state. -/
theorem C2_compiled_word_transparency (k : Nat) (i : interpreter) (name : String)
    (r : List String) (body : List String)
    (hc : i.commenting = false) (hcomp : i.compiling = false) (ha : i.anonymousStack = [])
    (hb : i.currentlyCompiling = []) (hr : i.reader = name :: r)
    (hcolon : i.words ":" = some ⟨some Native.colon, [], false⟩)
    (hsemi : i.words ";" = some ⟨some Native.semicolon, [], true⟩)
    (hname : name ≠ "(")
    (hts : ∀ t ∈ body, t ≠ "(" ∧ ParseInt t = none ∧
      ∃ w, i.words t = some w ∧ w.immediate = false) :
    ExecuteWords (k + 2) (":" :: (body ++ [";", name])) i
      = ExecuteWords k body (afterDefinition i name r (body.map Value.str)) ∧
    ((∀ t ∈ body, t ≠ name ∧ ∃ f bd, f.plain = true ∧ i.words t = some ⟨some f, bd, false⟩) →
      (ExecuteWords (k + 4) (":" :: (body ++ [";", name])) i).dataStack
        = (ExecuteWords (k + 2) body i).dataStack) := by
  refine ⟨call_after_definition k i name r body hc hcomp ha hb hr hcolon hsemi hname hts, ?_⟩
  intro hplain
  rw [call_after_definition (k + 2) i name r body hc hcomp ha hb hr hcolon hsemi hname hts]
  have e : afterDefinition i name r (body.map Value.str)
      = retable r (mapSet i.words name ⟨none, body.map Value.str, false⟩) "" i := by
    cases i
    simp_all [afterDefinition, retable]
  rw [e, ExecuteWords_plain_retable k body i r _ "" ?_, Result.dataStack_map_retable]
  intro t ht
  obtain ⟨h1, h2, _⟩ := hts t ht
  obtain ⟨h3, f, bd, hf, hw⟩ := hplain t ht
  exact ⟨h1, h2, f, bd, hf, hw, by simp [mapSet, h3, hw]⟩

theorem C2_compiled_word_transparency_witness :
    (ExecuteWords 4 (":" :: (["dup", "+", "print"] ++ [";", "double"]))
        { newInterpreter ["double"] with stack := [Value.int 3] }).dataStack
      = (ExecuteWords 2 ["dup", "+", "print"]
        { newInterpreter ["double"] with stack := [Value.int 3] }).dataStack :=
  (C2_compiled_word_transparency 0 { newInterpreter ["double"] with stack := [Value.int 3] }
    "double" [] ["dup", "+", "print"] rfl rfl rfl rfl rfl rfl rfl (by decide)
    (by
      intro t ht
      simp only [List.mem_cons, List.mem_singleton, List.not_mem_nil, or_false] at ht
      rcases ht with rfl | rfl | rfl
      · exact ⟨by decide, by decide, _, rfl, rfl⟩
      · exact ⟨by decide, by decide, _, rfl, rfl⟩
      · exact ⟨by decide, by decide, _, rfl, rfl⟩)).2
    (by
      intro t ht
      simp only [List.mem_cons, List.mem_singleton, List.not_mem_nil, or_false] at ht
      rcases ht with rfl | rfl | rfl
      · exact ⟨by decide, Native.dup, [], rfl, rfl⟩
      · exact ⟨by decide, Native.plus, [], rfl, rfl⟩
      · exact ⟨by decide, Native.print, [], rfl, rfl⟩)

/-- Claim C2 as stated fails for the name `(`: `dup` names a known non-immediate
word that is no numeral, and from the normal state whose Data Stack holds
`Integer 5`, `: ( dup ;` defines the word `(`, yet dispatching `(` then only
switches commenting on, by the guard that opens `ExecuteWord`, and the body is
not run: the Data Stack stays `[5]`, while dispatching `dup` directly leaves
`[5, 5]`.  The same is seen through the loop of `main` after the token `5`. -/
theorem C2_counterexample :
    builtinWords "dup" = some ⟨some Native.dup, [], false⟩ ∧ ParseInt "dup" = none ∧
    ExecuteWords 4 [":", "dup", ";", "("] { newInterpreter ["("] with stack := [Value.int 5] }
      = .ok { newInterpreter [] with
          stack := [Value.int 5]
          words := mapSet builtinWords "(" ⟨none, [Value.str "dup"], false⟩
          commenting := true } ∧
    ExecuteWords 4 ["dup"] { newInterpreter ["("] with stack := [Value.int 5] }
      = .ok { newInterpreter ["("] with stack := [Value.int 5, Value.int 5] } ∧
    (runProgram 4 ["5", ":", "(", "dup", ";", "("]).dataStack = some [Value.int 5] ∧
    (runProgram 4 ["5", "dup"]).dataStack = some [Value.int 5, Value.int 5] := by
  have p5 : ParseInt "5" = some 5 := by decide
  have q1 : ParseInt "dup" = none := by decide
  refine ⟨rfl, q1, ?_, ?_, ?_, ?_⟩
  · simp [ExecuteWords, newInterpreter, andThen_ok, ExecuteWord_succ, executeWordBody,
      builtinWords, wordRun_succ, wordRunBody, runNative, ReadWord, q1, Stack.Push, mapSet]
  · simp [ExecuteWords, newInterpreter, andThen_ok, ExecuteWord_succ, executeWordBody,
      builtinWords, wordRun_succ, wordRunBody, runNative, Stack.Push, Stack.Top]
  · simp [runProgram, newInterpreter, mainLoop_mk, mainLoop_nil, andThen_ok, ExecuteWord_succ,
      executeWordBody, builtinWords, wordRun_succ, wordRunBody, runNative, ReadWord, p5, q1,
      Stack.Push, mapSet, Result.dataStack]
  · simp [runProgram, newInterpreter, mainLoop_mk, mainLoop_nil, andThen_ok, ExecuteWord_succ,
      executeWordBody, builtinWords, wordRun_succ, wordRunBody, runNative, p5,
      Stack.Push, Stack.Top, Result.dataStack]

/-- A numeral that is no dictionary key is pushed while a definition is open and
does not reach the body: from the initial state `: foo pop 1 ; foo` ends with
an empty Data Stack (the `1` is pushed at once and popped by the call), while
`pop 1` ends with the Data Stack holding `Integer 1`. -/
theorem numeral_in_definition_pushed_at_once :
    builtinWords "pop" = some ⟨some Native.pop, [], false⟩ ∧
    builtinWords "1" = none ∧ ParseInt "1" = some 1 ∧
    (runProgram 4 [":", "foo", "pop", "1", ";", "foo"]).dataStack = some [] ∧
    (runProgram 4 ["pop", "1"]).dataStack = some [Value.int 1] := by
  have p1 : ParseInt "1" = some 1 := by decide
  have q1 : ParseInt "pop" = none := by decide
  refine ⟨rfl, rfl, p1, ?_, ?_⟩
  · simp [runProgram, newInterpreter, mainLoop_mk, mainLoop_nil, andThen_ok, ExecuteWord_succ,
      executeWordBody, builtinWords, wordRun_succ, wordRunBody, runNative, ReadWord, p1, q1,
      Stack.Push, Stack.Pop, mapSet, runItems, stringify, Result.dataStack]
  · simp [runProgram, newInterpreter, mainLoop_mk, mainLoop_nil, andThen_ok, ExecuteWord_succ,
      executeWordBody, builtinWords, wordRun_succ, wordRunBody, runNative, ReadWord, p1, q1,
      Stack.Push, Stack.Pop, Result.dataStack]


/-! ## The words if, run and dup -/

theorem runNative_if_nonzero (exec : String → interpreter → Result)
    (run : word → interpreter → Result) (i : interpreter) (rest : Stack) (e : Value) (c : Int)
    (hc : c ≠ 0) :
    runNative exec run Native.if_ { i with stack := rest ++ [e, Value.int c] }
      = runNative exec run Native.run { i with stack := rest ++ [e] } := by
  simp [runNative, Stack_Pop_append_two, Stack_Pop_append, hc]

/-- Claim C11: on a Data Stack `rest ++ [exec, Integer c]` with `c` not zero the
word `if` has the very outcome (successor state, fatal stop, or exhausted
budget) that the word `run` has on the same state with Data Stack
`rest ++ [exec]`; this holds for the closures under any callbacks and for
`word.run` on the two built-in words at every budget, whatever `exec` is, a
reference and a literal included. -/
theorem C11_if_nonzero_as_run (exec : String → interpreter → Result)
    (run : word → interpreter → Result) (k : Nat) (i : interpreter) (rest : Stack) (e : Value)
    (c : Int) (hc : c ≠ 0) :
    runNative exec run Native.if_ { i with stack := rest ++ [e, Value.int c] }
      = runNative exec run Native.run { i with stack := rest ++ [e] } ∧
    wordRun k ⟨some Native.if_, [], false⟩ { i with stack := rest ++ [e, Value.int c] }
      = wordRun k ⟨some Native.run, [], false⟩ { i with stack := rest ++ [e] } := by
  refine ⟨runNative_if_nonzero exec run i rest e c hc, ?_⟩
  cases k with
  | zero => rfl
  | succ k =>
    rw [wordRun_succ, wordRun_succ]
    exact runNative_if_nonzero _ _ i rest e c hc

theorem C11_if_nonzero_as_run_witness :
    wordRun 3 ⟨some Native.if_, [], false⟩
        { newInterpreter [] with stack := [] ++ [Value.lit [Value.int 4, Value.str "dup"],
          Value.int 1] }
      = wordRun 3 ⟨some Native.run, [], false⟩
        { newInterpreter [] with stack := [] ++ [Value.lit [Value.int 4, Value.str "dup"]] } :=
  (C11_if_nonzero_as_run (fun _ _ => .fatal) (fun _ _ => .fatal) 3 (newInterpreter []) []
    (Value.lit [Value.int 4, Value.str "dup"]) 1 (by decide)).2

/-- Claim C19: the word `dup` never fails: on an empty Data Stack it leaves the one
element stack holding the empty string that `Stack.Top` returns, and on a
stack `s ++ [v]` it leaves `s ++ [v, v]`; nothing else changes and no callback
is used. -/
theorem C19_dup (exec : String → interpreter → Result) (run : word → interpreter → Result)
    (k : Nat) (i : interpreter) (s : Stack) (v : Value) :
    runNative exec run Native.dup { i with stack := [] }
      = .ok { i with stack := [Value.str ""] } ∧
    runNative exec run Native.dup { i with stack := s ++ [v] }
      = .ok { i with stack := (s ++ [v]) ++ [v] } ∧
    wordRun (k + 1) ⟨some Native.dup, [], false⟩ { i with stack := [] }
      = .ok { i with stack := [Value.str ""] } ∧
    (runProgram (k + 2) ["dup"]).dataStack = some [Value.str ""] := by
  refine ⟨?_, ?_, ?_, ?_⟩
  · simp [runNative, Stack.Top, Stack.Push]
  · simp [runNative, Stack_Top_append, Stack.Push]
  · rw [wordRun_succ]
    simp [wordRunBody, runNative, Stack.Top, Stack.Push]
  · simp [runProgram, newInterpreter, mainLoop_mk, mainLoop_nil, andThen_ok, ExecuteWord_succ,
      executeWordBody, builtinWords, wordRun_succ, wordRunBody, runNative, Stack.Top,
      Stack.Push, Result.dataStack]

/-- Claim C20: when the top of the Data Stack is a reference whose name is no
dictionary key, the word `run` pops the reference and changes nothing else:
the missing entry is the zero word, with no native operation and an empty
body, whose run does nothing.  No fatal stop occurs. -/
theorem C20_run_dangling_reference (k : Nat) (i : interpreter) (rest : Stack) (name : String)
    (hn : i.words name = none) :
    wordRun (k + 2) ⟨some Native.run, [], false⟩ { i with stack := rest ++ [Value.ref name] }
      = .ok { i with stack := rest } ∧
    lookupOrZero i.words name = ⟨none, [], false⟩ := by
  refine ⟨?_, ?_⟩
  · rw [wordRun_succ]
    simp [wordRunBody, runNative, Stack_Pop_append, runValue, lookupOrZero, hn, zeroWord,
      wordRun_succ, runItems]
  · simp [lookupOrZero, hn, zeroWord]

theorem C20_run_dangling_reference_witness :
    wordRun 2 ⟨some Native.run, [], false⟩
        { newInterpreter [] with stack := [Value.int 5] ++ [Value.ref "nothing"] }
      = .ok { newInterpreter [] with stack := [Value.int 5] } :=
  (C20_run_dangling_reference 0 (newInterpreter []) [Value.int 5] "nothing" rfl).1


/-! ## Fatal stops -/

theorem ParseUintLoop_digits (l : List Char) (n m : Nat) (h : ParseUintLoop l n = some m) :
    ∀ c ∈ l, ∃ d, digitVal c = some d ∧ d < 6 := by
  induction l generalizing n with
  | nil => intro c hc; cases hc
  | cons a l ih =>
    unfold ParseUintLoop at h
    cases hd : digitVal a with
    | none => rw [hd] at h; cases h
    | some d =>
      rw [hd] at h
      simp only at h
      split at h
      · cases h
      · split at h
        · cases h
        · split at h
          · cases h
          · intro c hc
            rcases List.mem_cons.1 hc with rfl | hc
            · exact ⟨d, hd, by omega⟩
            · exact ih _ h c hc

theorem digitVal_high (c : Char) (h1 : '6'.toNat ≤ c.toNat) (h2 : c.toNat ≤ '9'.toNat) :
    ∃ d, digitVal c = some d ∧ 6 ≤ d := by
  have e6 : '6'.toNat = 54 := by decide
  have e9 : '9'.toNat = 57 := by decide
  have e0 : '0'.toNat = 48 := by decide
  rw [e6] at h1
  rw [e9] at h2
  refine ⟨c.toNat - 48, ?_, by omega⟩
  unfold digitVal
  rw [e0, e9, if_pos ⟨by omega, h2⟩]

theorem ParseInt_high_digit (s : String)
    (h : ∃ c ∈ s.data, '6'.toNat ≤ c.toNat ∧ c.toNat ≤ '9'.toNat) : ParseInt s = none := by
  obtain ⟨c, hc, h1, h2⟩ := h
  obtain ⟨d, hd, hd6⟩ := digitVal_high c h1 h2
  have hplus : c ≠ '+' := by
    rintro rfl
    have : digitVal '+' = none := by decide
    rw [this] at hd; cases hd
  have hminus : c ≠ '-' := by
    rintro rfl
    have : digitVal '-' = none := by decide
    rw [this] at hd; cases hd
  cases hs : s.data with
  | nil => rw [hs] at hc; cases hc
  | cons a l =>
    have e : s = String.mk (a :: l) := by
      cases s
      simp only at hs
      rw [hs]
    rw [e, ParseInt_cons]
    rw [hs] at hc
    have hmem : c ∈ (if a = '+' then l else if a = '-' then l else a :: l) := by
      rcases List.mem_cons.1 hc with rfl | hc
      · simp [hplus, hminus]
      · split
        · exact hc
        · split
          · exact hc
          · exact List.mem_cons_of_mem _ hc
    generalize (if a = '+' then l else if a = '-' then l else a :: l) = L at hmem
    cases hp : ParseUint L with
    | none => rfl
    | some un =>
      exfalso
      unfold ParseUint at hp
      by_cases hL : L = []
      · rw [if_pos hL] at hp
        cases hp
      · rw [if_neg hL] at hp
        obtain ⟨d2, hd2, hlt⟩ := ParseUintLoop_digits L 0 un hp c hmem
        rw [hd] at hd2
        cases hd2
        omega

/-- Claim C14: in a state that is not commenting, a token other than `(` that is
no dictionary key and does not parse as a base-6 64-bit integer is a fatal
stop with no successor state, whatever the compiling flag is and whether or not
a literal frame is open.  Every token holding one of the digits 6 to 9 fails to
parse, as does the name `foo`. -/
theorem C14_bad_word (k : Nat) (i : interpreter) (t : String)
    (hc : i.commenting = false) (ht : t ≠ "(") (hk : i.words t = none)
    (hp : ParseInt t = none) :
    ExecuteWord (k + 1) t i = .fatal ∧
    (∀ s : String, (∃ c ∈ s.data, '6'.toNat ≤ c.toNat ∧ c.toNat ≤ '9'.toNat) →
      ParseInt s = none) ∧
    ParseInt "foo" = none := by
  refine ⟨?_, ParseInt_high_digit, by decide⟩
  rw [ExecuteWord_succ]
  unfold executeWordBody
  simp only [ht, if_false, hc, Bool.false_eq_true, hk, hp]
  split <;> rfl

theorem C14_bad_word_witness :
    ExecuteWord 1 "17" { newInterpreter [] with anonymousStack := [[Value.int 1]] } = .fatal ∧
    ExecuteWord 1 "foo" (compilingState "bar" [] []) = .fatal ∧
    ExecuteWord 1 "foo" (newInterpreter []) = .fatal :=
  ⟨(C14_bad_word 0 { newInterpreter [] with anonymousStack := [[Value.int 1]] } "17" rfl
      (by decide) rfl (by decide)).1,
   (C14_bad_word 0 (compilingState "bar" [] []) "foo" rfl (by decide) rfl (by decide)).1,
   (C14_bad_word 0 (newInterpreter []) "foo" rfl (by decide) rfl (by decide)).1⟩

/-- Claim C15: each of `+`, `=`, `!`, `sleep`, `run` and `if` is a fatal stop, with
no successor state and whatever the callbacks are, when the Data Stack holds
fewer values than the word pops or when a popped value has the wrong kind: a
non-integer operand of `+`, `!`, `sleep` or the `if` condition, and a `run`
target or `if` exec value that is neither a reference nor a literal. -/
theorem C15_arity_and_type_violations (exec : String → interpreter → Result)
    (run : word → interpreter → Result) (i : interpreter) (rest : Stack) (a b v e : Value)
    (c : Int) :
    (runNative exec run Native.plus { i with stack := [] } = .fatal ∧
      runNative exec run Native.plus { i with stack := [v] } = .fatal ∧
      (a.isInt = false ∨ b.isInt = false →
        runNative exec run Native.plus { i with stack := rest ++ [a, b] } = .fatal)) ∧
    (runNative exec run Native.eq { i with stack := [] } = .fatal ∧
      runNative exec run Native.eq { i with stack := [v] } = .fatal) ∧
    (runNative exec run Native.not { i with stack := [] } = .fatal ∧
      (v.isInt = false →
        runNative exec run Native.not { i with stack := rest ++ [v] } = .fatal)) ∧
    (runNative exec run Native.sleep { i with stack := [] } = .fatal ∧
      (v.isInt = false →
        runNative exec run Native.sleep { i with stack := rest ++ [v] } = .fatal)) ∧
    (runNative exec run Native.run { i with stack := [] } = .fatal ∧
      (v.isExec = false →
        runNative exec run Native.run { i with stack := rest ++ [v] } = .fatal)) ∧
    (runNative exec run Native.if_ { i with stack := [] } = .fatal ∧
      (v.isInt = false →
        runNative exec run Native.if_ { i with stack := rest ++ [v] } = .fatal) ∧
      (c ≠ 0 → runNative exec run Native.if_ { i with stack := [Value.int c] } = .fatal) ∧
      (c ≠ 0 → e.isExec = false →
        runNative exec run Native.if_ { i with stack := rest ++ [e, Value.int c] }
          = .fatal)) := by
  have one : ∀ x : Value, Stack.Pop [x] = ([], x, true) := fun x => Stack_Pop_append [] x
  refine ⟨⟨?_, ?_, ?_⟩, ⟨?_, ?_⟩, ⟨?_, ?_⟩, ⟨?_, ?_⟩, ⟨?_, ?_⟩, ⟨?_, ?_, ?_, ?_⟩⟩
  · simp [runNative, Stack_Pop_nil]
  · simp [runNative, one, Stack_Pop_nil]
  · intro h
    simp only [runNative, Stack_Pop_append_two, Stack_Pop_append]
    cases a <;> cases b <;> simp_all [Value.isInt]
  · simp [runNative, Stack_Pop_nil]
  · simp [runNative, one, Stack_Pop_nil]
  · simp [runNative, Stack_Pop_nil]
  · intro h
    simp only [runNative, Stack_Pop_append]
    cases v <;> simp_all [Value.isInt]
  · simp [runNative, Stack_Pop_nil]
  · intro h
    simp only [runNative, Stack_Pop_append]
    cases v <;> simp_all [Value.isInt]
  · simp [runNative, Stack_Pop_nil]
  · intro h
    simp only [runNative, Stack_Pop_append, runValue]
    cases v <;> simp_all [Value.isExec]
  · simp [runNative, Stack_Pop_nil]
  · intro h
    simp only [runNative, Stack_Pop_append]
    cases v <;> simp_all [Value.isInt]
  · intro h
    simp [runNative, one, Stack_Pop_nil, h]
  · intro h he
    simp only [runNative, Stack_Pop_append_two, Stack_Pop_append, runValue, h, if_false]
    cases e <;> simp_all [Value.isExec]

theorem C15_arity_and_type_violations_witness :
    runNative (fun _ j => .ok j) (fun _ j => .ok j) Native.plus
        { newInterpreter [] with stack := [Value.int 2] ++ [Value.str "dup", Value.int 1] }
      = .fatal ∧
    runNative (fun _ j => .ok j) (fun _ j => .ok j) Native.run
        { newInterpreter [] with stack := [Value.int 2] ++ [Value.int 3] } = .fatal ∧
    runNative (fun _ j => .ok j) (fun _ j => .ok j) Native.if_
        { newInterpreter [] with stack := [Value.int 7] } = .fatal :=
  ⟨(C15_arity_and_type_violations (fun _ j => .ok j) (fun _ j => .ok j) (newInterpreter [])
      [Value.int 2] (Value.str "dup") (Value.int 1) (Value.int 3) (Value.int 3) 7).1.2.2
      (Or.inl rfl),
   (C15_arity_and_type_violations (fun _ j => .ok j) (fun _ j => .ok j) (newInterpreter [])
      [Value.int 2] (Value.str "dup") (Value.int 1) (Value.int 3) (Value.int 3) 7).2.2.2.2.1.2
      rfl,
   (C15_arity_and_type_violations (fun _ j => .ok j) (fun _ j => .ok j) (newInterpreter [])
      [Value.int 2] (Value.str "dup") (Value.int 1) (Value.int 3) (Value.int 3) 7).2.2.2.2.2.2.2.1
      (by decide)⟩


/-! ## The depth of the literal-collection stack -/

theorem dictOK_builtinWords : dictOK builtinWords := fun _ _ h _ => h

theorem dictOK_mapSet (d : String → Option word) (key : String) (body : Stack)
    (h : dictOK d) : dictOK (mapSet d key ⟨none, body, false⟩) := by
  intro s w hs hi
  unfold mapSet at hs
  by_cases hk : s = key
  · rw [if_pos hk] at hs
    cases hs
    cases hi
  · rw [if_neg hk] at hs
    exact h s w hs hi

theorem dictOK_rbracket (d : String → Option word) (h : dictOK d) (w : word)
    (hw : d "]" = some w) (hi : w.immediate = true) : w.native = some Native.rbracket := by
  have := h "]" w hw hi
  have e : builtinWords "]" = some ⟨some Native.rbracket, [], true⟩ := rfl
  rw [e] at this
  cases this
  rfl

theorem runItems_depthOK (exec : String → interpreter → Result)
    (he : ∀ s i j, depthOK i → exec s i = .ok j → depthOK j)
    (l : List Value) (i j : interpreter) (hi : depthOK i) (h : runItems exec l i = .ok j) :
    depthOK j := by
  induction l generalizing i with
  | nil =>
    simp only [runItems] at h
    cases h
    exact hi
  | cons v l ih =>
    simp only [runItems] at h
    cases hx : exec (stringify v) i with
    | ok i1 =>
      rw [hx, andThen_ok] at h
      exact ih i1 (he _ _ _ hi hx) h
    | fatal => rw [hx] at h; cases h
    | timeout => rw [hx] at h; cases h

theorem runValue_depthOK (exec : String → interpreter → Result)
    (run : word → interpreter → Result)
    (he : ∀ s i j, depthOK i → exec s i = .ok j → depthOK j)
    (hr : ∀ w i j, depthOK i → (i.anonymousStack = [] ∨ w.native = some Native.rbracket) →
      run w i = .ok j → depthOK j)
    (v : Value) (i j : interpreter) (hi : depthOK i) (ha : i.anonymousStack = [])
    (h : runValue exec run v i = .ok j) : depthOK j := by
  cases v with
  | int n => cases h
  | str s => cases h
  | lit items => exact runItems_depthOK exec he items i j hi h
  | ref key => exact hr _ i j hi (Or.inl ha) h

theorem runNative_depthOK (exec : String → interpreter → Result)
    (run : word → interpreter → Result)
    (he : ∀ s i j, depthOK i → exec s i = .ok j → depthOK j)
    (hr : ∀ w i j, depthOK i → (i.anonymousStack = [] ∨ w.native = some Native.rbracket) →
      run w i = .ok j → depthOK j)
    (f : Native) (i j : interpreter) (hi : depthOK i)
    (ha : i.anonymousStack = [] ∨ f = Native.rbracket)
    (h : runNative exec run f i = .ok j) : depthOK j := by
  cases f
  case print => simp only [runNative] at h; cases h; exact hi
  case stack => simp only [runNative] at h; cases h; exact hi
  case colon =>
    simp only [runNative, ReadWord] at h
    split at h <;> (cases h; exact hi)
  case semicolon =>
    simp only [runNative] at h
    cases h
    exact ⟨hi.1, dictOK_mapSet _ _ _ hi.2⟩
  case plus =>
    simp only [runNative] at h
    repeat' split at h
    all_goals first
      | cases h; done
      | (cases h; exact hi)
  case go =>
    simp only [runNative, ReadWord] at h
    rcases ha with ha | ha
    · split at h
      · refine hr _ _ j ?_ (Or.inl ?_) h
        · exact hi
        · exact ha
      · refine hr _ _ j ?_ (Or.inl ?_) h
        · exact hi
        · exact ha
    · cases ha
  case sleep =>
    simp only [runNative] at h
    repeat' split at h
    all_goals first
      | cases h; done
      | (cases h; exact hi)
  case amp =>
    simp only [runNative, ReadWord] at h
    split at h <;> (cases h; exact hi)
  case lbracket =>
    simp only [runNative] at h
    cases h
    rcases ha with ha | ha
    · refine ⟨?_, hi.2⟩
      simp [AnonStack.Push, ha]
    · cases ha
  case rbracket =>
    simp only [runNative, AnonStack.Pop] at h
    split at h
    · cases h
    · rename_i a val heq
      have hlen := hi.1
      cases h
      refine ⟨?_, hi.2⟩
      split at heq
      · cases heq
      · cases heq
        simp only [List.length_dropLast]
        omega
  case dup => simp only [runNative] at h; cases h; exact hi
  case run =>
    simp only [runNative] at h
    rcases ha with ha | ha
    · split at h
      · cases h
      · refine runValue_depthOK exec run he hr _ _ j ?_ ?_ h
        · exact hi
        · exact ha
    · cases ha
  case pop => simp only [runNative] at h; cases h; exact hi
  case if_ =>
    simp only [runNative] at h
    rcases ha with ha | ha
    · split at h
      · cases h
      · split at h
        · cases h; exact hi
        · split at h
          · cases h
          · refine runValue_depthOK exec run he hr _ _ j ?_ ?_ h
            · exact hi
            · exact ha
      · cases h
    · cases ha
  case eq =>
    simp only [runNative] at h
    repeat' split at h
    all_goals first
      | cases h; done
      | (cases h; exact hi)
  case not =>
    simp only [runNative] at h
    repeat' split at h
    all_goals first
      | cases h; done
      | (cases h; exact hi)


theorem AnonStack_PushOnTop_length (a b : AnonStack) (v : Value)
    (h : AnonStack.PushOnTop a v = some b) : b.length = a.length := by
  unfold AnonStack.PushOnTop at h
  cases hl : a.getLast? with
  | none => rw [hl] at h; cases h
  | some top =>
    rw [hl] at h
    cases h
    have hne : a ≠ [] := by
      rintro rfl
      cases hl
    have := List.length_pos_of_ne_nil hne
    simp only [List.length_append, List.length_dropLast, List.length_singleton]
    omega

theorem pushOnTop_depthOK (i j : interpreter) (v : Value) (hi : depthOK i)
    (h : pushOnTop i v = .ok j) : depthOK j := by
  unfold pushOnTop at h
  cases hp : AnonStack.PushOnTop i.anonymousStack v with
  | none => rw [hp] at h; cases h
  | some a =>
    rw [hp] at h
    cases h
    refine ⟨?_, hi.2⟩
    have := AnonStack_PushOnTop_length _ _ _ hp
    have := hi.1
    show a.length ≤ 1
    omega

theorem executeWordBody_depthOK (run : word → interpreter → Result)
    (hr : ∀ w i j, depthOK i → (i.anonymousStack = [] ∨ w.native = some Native.rbracket) →
      run w i = .ok j → depthOK j)
    (s : String) (i j : interpreter) (hi : depthOK i)
    (h : executeWordBody run s i = .ok j) : depthOK j := by
  unfold executeWordBody at h
  split at h
  · cases h; exact hi
  · split at h
    · split at h <;> (cases h; exact hi)
    · split at h
      · split at h
        · rename_i val hval
          split at h
          · cases h
          · split at h
            · rename_i himm
              simp only [Bool.and_eq_true, decide_eq_true_eq] at himm
              have hs : s = "]" := himm.2
              rw [hs] at hval
              exact hr val i j hi (Or.inr (dictOK_rbracket _ hi.2 val hval himm.1)) h
            · split at h
              · exact pushOnTop_depthOK i j _ hi h
              · exact pushOnTop_depthOK i j _ hi h
        · split at h
          · exact pushOnTop_depthOK i j _ hi h
          · cases h
      · rename_i hempty
        have ha : i.anonymousStack = [] := by
          simpa using hempty
        split at h
        · split at h
          · exact hr _ i j hi (Or.inl ha) h
          · split at h <;> (cases h; exact hi)
        · split at h
          · cases h; exact hi
          · cases h

theorem wordRunBody_depthOK (exec : String → interpreter → Result)
    (run : word → interpreter → Result)
    (he : ∀ s i j, depthOK i → exec s i = .ok j → depthOK j)
    (hr : ∀ w i j, depthOK i → (i.anonymousStack = [] ∨ w.native = some Native.rbracket) →
      run w i = .ok j → depthOK j)
    (w : word) (i j : interpreter) (hi : depthOK i)
    (ha : i.anonymousStack = [] ∨ w.native = some Native.rbracket)
    (h : wordRunBody exec run w i = .ok j) : depthOK j := by
  unfold wordRunBody at h
  cases hn : w.native with
  | some f =>
    rw [hn] at h
    refine runNative_depthOK exec run he hr f i j hi ?_ h
    rcases ha with ha | ha
    · exact Or.inl ha
    · rw [hn] at ha
      cases ha
      exact Or.inr rfl
  | none =>
    rw [hn] at h
    exact runItems_depthOK exec he _ i j hi h

theorem depthOK_preserved (k : Nat) :
    (∀ s i j, depthOK i → ExecuteWord k s i = .ok j → depthOK j) ∧
    (∀ w i j, depthOK i → (i.anonymousStack = [] ∨ w.native = some Native.rbracket) →
      wordRun k w i = .ok j → depthOK j) := by
  induction k with
  | zero =>
    refine ⟨fun s i j _ h => ?_, fun w i j _ _ h => ?_⟩
    · cases h
    · cases h
  | succ k ih =>
    refine ⟨fun s i j hi h => ?_, fun w i j hi ha h => ?_⟩
    · exact executeWordBody_depthOK _ ih.2 s i j hi h
    · exact wordRunBody_depthOK _ _ ih.1 ih.2 w i j hi ha h

theorem ExecuteWords_depthOK (k : Nat) (ts : List String) (i j : interpreter) (hi : depthOK i)
    (h : ExecuteWords k ts i = .ok j) : depthOK j := by
  induction ts generalizing i with
  | nil => cases h; exact hi
  | cons t ts ih =>
    rw [ExecuteWords_cons] at h
    cases hx : ExecuteWord k t i with
    | ok i1 =>
      rw [hx, andThen_ok] at h
      exact ih i1 ((depthOK_preserved k).1 t i i1 hi hx) h
    | fatal => rw [hx] at h; cases h
    | timeout => rw [hx] at h; cases h

theorem mainLoop_depthOK (k n : Nat) (i j : interpreter) (hi : depthOK i)
    (h : mainLoop k n i = .ok j) : depthOK j := by
  induction n generalizing i with
  | zero => cases h; exact hi
  | succ n ih =>
    simp only [mainLoop] at h
    split at h
    · cases h; exact hi
    · rename_i t rest hr
      simp only [ReadWord, hr] at h
      cases hx : ExecuteWord k t { i with reader := rest } with
      | ok i1 =>
        rw [hx, andThen_ok] at h
        have hi1 : depthOK { i with reader := rest } := hi
        exact ih i1 ((depthOK_preserved k).1 t _ i1 hi1 hx) h
      | fatal => rw [hx] at h; cases h
      | timeout => rw [hx] at h; cases h

theorem depthOK_newInterpreter (r : List String) : depthOK (newInterpreter r) :=
  ⟨by simp [newInterpreter], dictOK_builtinWords⟩

theorem depthOK_pushOnTop (j : interpreter) (v : Value) (hj : depthOK j)
    (hne : j.anonymousStack ≠ []) :
    ∃ top, j.anonymousStack = [top] ∧
      pushOnTop j v = .ok { j with anonymousStack := [top ++ [v]] } := by
  have hlen := hj.1
  cases ha : j.anonymousStack with
  | nil => exact absurd ha hne
  | cons top rest =>
    rw [ha] at hlen
    cases rest with
    | nil =>
      refine ⟨top, rfl, ?_⟩
      simp [pushOnTop, AnonStack.PushOnTop, ha, Stack.Push]
    | cons b rest =>
      simp only [List.length_cons] at hlen
      omega

theorem depthOK_rbracket (exec : String → interpreter → Result)
    (run : word → interpreter → Result) (j j1 : interpreter) (hj : depthOK j)
    (h : runNative exec run Native.rbracket j = .ok j1) : j1.anonymousStack = [] := by
  have hlen := hj.1
  simp only [runNative, AnonStack.Pop] at h
  split at h
  · cases h
  · rename_i a val heq
    cases h
    split at heq
    · cases heq
    · cases heq
      show j.anonymousStack.dropLast = []
      apply List.eq_nil_of_length_eq_zero
      simp only [List.length_dropLast]
      omega

/-- Claim C17: every state reached from the initial state by dispatching tokens in
sequence, read by the loop of `main` from any input or handed to `ExecuteWord`
one after the other, has at most one literal frame open (`go` runs its word at
once).  Consequently in such a state with a frame open `PushOnTop` finds the one
frame and appends to it, and whenever the closure of `]` completes no frame is
left open. -/
theorem C17_literal_depth_at_most_one (k n : Nat) (r ts : List String) (j : interpreter)
    (h : mainLoop k n (newInterpreter r) = .ok j ∨ ExecuteWords k ts (newInterpreter r) = .ok j) :
    j.anonymousStack.length ≤ 1 ∧
    (∀ v, j.anonymousStack ≠ [] → ∃ top, j.anonymousStack = [top] ∧
      pushOnTop j v = .ok { j with anonymousStack := [top ++ [v]] }) ∧
    (∀ exec run j1, runNative exec run Native.rbracket j = .ok j1 → j1.anonymousStack = []) := by
  have hj : depthOK j := by
    rcases h with h | h
    · exact mainLoop_depthOK k n _ j (depthOK_newInterpreter r) h
    · exact ExecuteWords_depthOK k ts _ j (depthOK_newInterpreter r) h
  exact ⟨hj.1, fun v hne => depthOK_pushOnTop j v hj hne,
    fun exec run j1 h1 => depthOK_rbracket exec run j j1 hj h1⟩


theorem C17_literal_depth_at_most_one_witness :
    mainLoop 2 4 (newInterpreter ["[", "1", "[", "dup"])
      = .ok { newInterpreter [] with
          anonymousStack := [[Value.int 1, Value.str "[", Value.str "dup"]] } ∧
    ({ newInterpreter [] with
        anonymousStack := [[Value.int 1, Value.str "[", Value.str "dup"]] }
      : interpreter).anonymousStack.length ≤ 1 :=
  have h : mainLoop 2 4 (newInterpreter ["[", "1", "[", "dup"])
      = .ok { newInterpreter [] with
          anonymousStack := [[Value.int 1, Value.str "[", Value.str "dup"]] } := by
    have p1 : ParseInt "1" = some 1 := by decide
    have q1 : ParseInt "[" = none := by decide
    have q2 : ParseInt "dup" = none := by decide
    simp [newInterpreter, mainLoop_mk, mainLoop_nil, andThen_ok, ExecuteWord_succ,
      executeWordBody, builtinWords, wordRun_succ, wordRunBody, runNative, p1, q1, q2, pushOnTop,
      AnonStack.PushOnTop, AnonStack.Push, Stack.Push]
  ⟨h, (C17_literal_depth_at_most_one 2 4 ["[", "1", "[", "dup"] [] _ (Or.inl h)).1⟩

/-! ## Immediate words inside a literal -/

theorem builtinWords_immediate (s : String) (w : word) (hb : builtinWords s = some w)
    (hi : w.immediate = true) : s = ";" ∨ s = "]" := by
  by_cases h4 : s = ";"
  · exact Or.inl h4
  · by_cases h10 : s = "]"
    · exact Or.inr h10
    · exfalso
      simp only [builtinWords, h4, h10, if_false] at hb
      by_cases h : s = "print"
      · rw [if_pos h] at hb; cases hb; cases hi
      · rw [if_neg h] at hb
        by_cases h : s = "stack"
        · rw [if_pos h] at hb; cases hb; cases hi
        · rw [if_neg h] at hb
          by_cases h : s = ":"
          · rw [if_pos h] at hb; cases hb; cases hi
          · rw [if_neg h] at hb
            by_cases h : s = "+"
            · rw [if_pos h] at hb; cases hb; cases hi
            · rw [if_neg h] at hb
              by_cases h : s = "go"
              · rw [if_pos h] at hb; cases hb; cases hi
              · rw [if_neg h] at hb
                by_cases h : s = "sleep"
                · rw [if_pos h] at hb; cases hb; cases hi
                · rw [if_neg h] at hb
                  by_cases h : s = "&"
                  · rw [if_pos h] at hb; cases hb; cases hi
                  · rw [if_neg h] at hb
                    by_cases h : s = "["
                    · rw [if_pos h] at hb; cases hb; cases hi
                    · rw [if_neg h] at hb
                      by_cases h : s = "dup"
                      · rw [if_pos h] at hb; cases hb; cases hi
                      · rw [if_neg h] at hb
                        by_cases h : s = "run"
                        · rw [if_pos h] at hb; cases hb; cases hi
                        · rw [if_neg h] at hb
                          by_cases h : s = "pop"
                          · rw [if_pos h] at hb; cases hb; cases hi
                          · rw [if_neg h] at hb
                            by_cases h : s = "if"
                            · rw [if_pos h] at hb; cases hb; cases hi
                            · rw [if_neg h] at hb
                              by_cases h : s = "="
                              · rw [if_pos h] at hb; cases hb; cases hi
                              · rw [if_neg h] at hb
                                by_cases h : s = "!"
                                · rw [if_pos h] at hb; cases hb; cases hi
                                · rw [if_neg h] at hb
                                  cases hb

/-- Claim C16: in a state that is not commenting and has a literal frame open, a
token that names an immediate word other than `]` is a fatal stop: this holds
for every such token but `(`, and in every dictionary whose immediate entries
are the built-in ones (all dictionaries the interpreter reaches) the token is
`;`.  Dispatching `]`, when it names the immediate built-in word, runs it: the
top frame is removed and pushed onto the Data Stack as the literal of the items
collected in it, in order. -/
theorem C16_immediate_in_literal (k : Nat) (i : interpreter) (t : String) (w : word)
    (frames : AnonStack) (top : Stack)
    (hc : i.commenting = false) (ha : i.anonymousStack = frames ++ [top]) :
    (i.words t = some w → w.immediate = true → t ≠ "]" → t ≠ "(" →
      ExecuteWord (k + 1) t i = .fatal) ∧
    (dictOK i.words → i.words t = some w → w.immediate = true → t ≠ "]" →
      t = ";" ∧ ExecuteWord (k + 1) t i = .fatal) ∧
    (i.words "]" = some ⟨some Native.rbracket, [], true⟩ →
      ExecuteWord (k + 2) "]" i
        = .ok { i with anonymousStack := frames, stack := i.stack ++ [Value.lit top] }) := by
  have hne : (!(frames ++ [top]).isEmpty) = true := by simp
  have fatal_ : i.words t = some w → w.immediate = true → t ≠ "]" → t ≠ "(" →
      ExecuteWord (k + 1) t i = .fatal := by
    intro hw hi ht hp
    rw [ExecuteWord_succ]
    simp [executeWordBody, hp, hc, ha, hw, hi, ht]
  refine ⟨fatal_, ?_, ?_⟩
  · intro hd hw hi ht
    have hb := hd t w hw hi
    have hsemi : t = ";" := by
      rcases builtinWords_immediate t w hb hi with h | h
      · exact h
      · exact absurd h ht
    refine ⟨hsemi, fatal_ hw hi ht ?_⟩
    rw [hsemi]
    decide
  · intro hw
    rw [ExecuteWord_succ]
    have hq : ¬ ("]" = "(") := by decide
    simp [executeWordBody, hq, hc, ha, hw, wordRun_succ, wordRunBody, runNative, AnonStack.Pop,
      Stack.Push]

theorem C16_immediate_in_literal_witness :
    ExecuteWord 1 ";" { newInterpreter [] with anonymousStack := [] ++ [[Value.int 1]] }
      = .fatal ∧
    ExecuteWord 2 "]" { newInterpreter [] with anonymousStack := [] ++ [[Value.int 1]] }
      = .ok { newInterpreter [] with
          anonymousStack := [], stack := [] ++ [Value.lit [Value.int 1]] } :=
  ⟨((C16_immediate_in_literal 0 { newInterpreter [] with anonymousStack := [] ++ [[Value.int 1]] }
      ";" ⟨some Native.semicolon, [], true⟩ [] [Value.int 1] rfl rfl).2.1
      dictOK_builtinWords rfl rfl (by decide)).2,
   (C16_immediate_in_literal 0 { newInterpreter [] with anonymousStack := [] ++ [[Value.int 1]] }
      ";" ⟨some Native.semicolon, [], true⟩ [] [Value.int 1] rfl rfl).2.2 rfl⟩


/-! ## References -/

theorem wordRun_run_reference (k : Nat) (i : interpreter) (rest : Stack) (name : String)
    (body : Stack) (hw : i.words name = some ⟨none, body, false⟩) :
    wordRun (k + 2) ⟨some Native.run, [], false⟩ { i with stack := rest ++ [Value.ref name] }
      = runItems (ExecuteWord k) body { i with stack := rest } := by
  rw [wordRun_succ]
  simp [wordRunBody, runNative, Stack_Pop_append, runValue, lookupOrZero, hw, wordRun_succ]

theorem ExecuteWord_amp (k : Nat) (i : interpreter) (name : String) (r : List String)
    (hc : i.commenting = false) (hcomp : i.compiling = false) (ha : i.anonymousStack = [])
    (hr : i.reader = name :: r)
    (hamp : i.words "&" = some ⟨some Native.amp, [], false⟩) :
    ExecuteWord (k + 2) "&" i
      = .ok { i with reader := r, stack := i.stack ++ [Value.ref name] } := by
  rw [ExecuteWord_succ]
  simp [executeWordBody, hc, ha, hamp, hcomp, wordRun_succ, wordRunBody, runNative, ReadWord, hr,
    Stack.Push]

theorem ExecuteWord_run_after_definition (k : Nat) (i : interpreter) (name : String)
    (r : List String) (body : List String)
    (hc : i.commenting = false) (ha : i.anonymousStack = [])
    (hrun : i.words "run" = some ⟨some Native.run, [], false⟩) (hname : name ≠ "run") :
    ExecuteWord (k + 3) "run" (afterDefinition
        { i with reader := name :: r, stack := i.stack ++ [Value.ref name] } name r
        (body.map Value.str))
      = ExecuteWords k body (afterDefinition i name r (body.map Value.str)) := by
  have hne : ¬ ("run" = name) := fun h => hname h.symm
  have hq : ¬ ("run" = "(") := by decide
  have h4 := wordRun_run_reference k
    (afterDefinition i name r (body.map Value.str)) i.stack name (body.map Value.str)
    (by simp [afterDefinition, mapSet])
  have e2 : ({ afterDefinition i name r (body.map Value.str) with
        stack := i.stack ++ [Value.ref name] } : interpreter)
      = afterDefinition
        { i with reader := name :: r, stack := i.stack ++ [Value.ref name] } name r
        (body.map Value.str) := rfl
  have e3 : ({ afterDefinition i name r (body.map Value.str) with stack := i.stack }
        : interpreter)
      = afterDefinition i name r (body.map Value.str) := rfl
  rw [e2, e3, runItems_str_eq_ExecuteWords] at h4
  rw [← h4, ExecuteWord_succ]
  simp [executeWordBody, hq, afterDefinition, hc, ha, mapSet, hne, hrun]

/-- Claim C12: a reference holds a name, not a word, and `run` resolves the name in
the dictionary as it is when `run` executes.  Whatever the dictionary held when
the reference was pushed, if it now maps the name to a compiled word, `run`
pops the reference and runs the items of that body.  In particular, from a
normal state, `& name` followed by the definition `: name body ;` (a first
definition or a redefinition) and `run` has the outcome of dispatching the
tokens of the new body in the state after the definition, the reference gone
from the Data Stack; and `5 : foo dup ; & foo : foo pop ; run` ends with an
empty Data Stack, as the later body `pop` asks, not the earlier `dup`. -/
theorem C12_reference_late_binding (k : Nat) (i : interpreter) (name : String)
    (r : List String) (body : List String) (rest items : Stack)
    (hc : i.commenting = false) (hcomp : i.compiling = false) (ha : i.anonymousStack = [])
    (hb : i.currentlyCompiling = []) (hr : i.reader = name :: name :: r)
    (hamp : i.words "&" = some ⟨some Native.amp, [], false⟩)
    (hcolon : i.words ":" = some ⟨some Native.colon, [], false⟩)
    (hsemi : i.words ";" = some ⟨some Native.semicolon, [], true⟩)
    (hrun : i.words "run" = some ⟨some Native.run, [], false⟩)
    (hname : name ≠ "run")
    (hts : ∀ t ∈ body, t ≠ "(" ∧ ParseInt t = none ∧
      ∃ w, i.words t = some w ∧ w.immediate = false) :
    (i.words name = some ⟨none, items, false⟩ →
      wordRun (k + 2) ⟨some Native.run, [], false⟩ { i with stack := rest ++ [Value.ref name] }
        = runItems (ExecuteWord k) items { i with stack := rest }) ∧
    ExecuteWords (k + 3) ("&" :: ":" :: (body ++ [";", "run"])) i
      = ExecuteWords k body (afterDefinition i name r (body.map Value.str)) ∧
    (runProgram (k + 5)
        ["5", ":", "foo", "dup", ";", "&", "foo", ":", "foo", "pop", ";", "run"]).dataStack
      = some [] := by
  refine ⟨wordRun_run_reference k i rest name items, ?_, ?_⟩
  · have h1 := ExecuteWord_amp (k + 1) i name (name :: r) hc hcomp ha hr hamp
    have e : ":" :: (body ++ [";", "run"]) = (":" :: (body ++ [";"])) ++ ["run"] := by simp
    have h2 := definition_effect (k + 1)
      { i with reader := name :: r, stack := i.stack ++ [Value.ref name] } name r body
      hc hcomp ha hb rfl hcolon hsemi hts
    have h3 := ExecuteWord_run_after_definition k i name r body hc ha hrun hname
    rw [ExecuteWords_cons, h1, andThen_ok, e, ExecuteWords_append, h2, andThen_ok,
      ExecuteWords_cons, h3]
    exact andThen_ok_right _
  · have p5 : ParseInt "5" = some 5 := by decide
    have q1 : ParseInt "dup" = none := by decide
    have q2 : ParseInt "pop" = none := by decide
    simp [runProgram, newInterpreter, mainLoop_mk, mainLoop_nil, andThen_ok, ExecuteWord_succ,
      executeWordBody, builtinWords, wordRun_succ, wordRunBody, runNative, ReadWord, p5, q1, q2,
      Stack.Push, Stack.Pop, mapSet, runItems, runValue, lookupOrZero, stringify,
      Result.dataStack]

theorem C12_reference_late_binding_witness :
    ExecuteWords 3 ("&" :: ":" :: (["pop"] ++ [";", "run"]))
        { newInterpreter ["foo", "foo"] with
          words := mapSet builtinWords "foo" ⟨none, [Value.str "dup"], false⟩,
          stack := [Value.int 5] }
      = ExecuteWords 0 ["pop"] (afterDefinition
        { newInterpreter ["foo", "foo"] with
          words := mapSet builtinWords "foo" ⟨none, [Value.str "dup"], false⟩,
          stack := [Value.int 5] } "foo" [] (["pop"].map Value.str)) :=
  (C12_reference_late_binding 0
    { newInterpreter ["foo", "foo"] with
      words := mapSet builtinWords "foo" ⟨none, [Value.str "dup"], false⟩,
      stack := [Value.int 5] } "foo" [] ["pop"] [] []
    rfl rfl rfl rfl rfl rfl rfl rfl rfl (by decide)
    (by
      intro t ht
      simp only [List.mem_singleton] at ht
      subst ht
      exact ⟨by decide, by decide, _, rfl, rfl⟩)).2.1


/-! ## The closing bracket while compiling -/

theorem mainLoop_step (k n : Nat) (j : interpreter) (t : String) (rest : List String)
    (h : j.reader = t :: rest) :
    mainLoop k (n + 1) j = (ExecuteWord k t { j with reader := rest }).andThen (mainLoop k n) := by
  simp [mainLoop, ReadWord, h]

theorem ExecuteWord_rbracket_no_frame (k : Nat) (i : interpreter)
    (hc : i.commenting = false) (ha : i.anonymousStack = [])
    (hw : i.words "]" = some ⟨some Native.rbracket, [], true⟩) :
    ExecuteWord (k + 2) "]" i = .fatal := by
  have hq : ¬ ("]" = "(") := by decide
  rw [ExecuteWord_succ]
  simp [executeWordBody, hq, hc, ha, hw, wordRun_succ, wordRunBody, runNative, AnonStack.Pop]

theorem ExecuteWord_deferredToken (k : Nat) (j : interpreter) (t : String)
    (hc : j.commenting = false) (ha : j.anonymousStack = []) (hcomp : j.compiling = true)
    (hw : j.words = builtinWords) (ht : deferredToken t = true) :
    ∃ j1, ExecuteWord (k + 1) t j = .ok j1 ∧ j1.commenting = false ∧ j1.anonymousStack = [] ∧
      j1.compiling = true ∧ j1.words = builtinWords ∧ j1.reader = j.reader := by
  unfold deferredToken at ht
  simp only [Bool.and_eq_true, decide_eq_true_eq] at ht
  obtain ⟨hp, hm⟩ := ht
  cases hb : builtinWords t with
  | some w =>
    rw [hb] at hm
    have hi : w.immediate = false := by simpa using hm
    have hn : ParseInt t = none := by
      cases hpi : ParseInt t with
      | none => rfl
      | some n =>
        rw [builtinWords_of_ParseInt t n hpi] at hb
        cases hb
    refine ⟨_, ExecuteWord_defer k j t w hc ha hcomp (by rw [hw]; exact hb) hi hn hp,
      hc, ha, hcomp, hw, rfl⟩
  | none =>
    rw [hb] at hm
    cases hpi : ParseInt t with
    | none => rw [hpi] at hm; cases hm
    | some n =>
      refine ⟨_, ExecuteWord_push_numeral k j t n hc ha (by rw [hw]; exact hb) hpi,
        hc, ha, hcomp, hw, rfl⟩

theorem mainLoop_deferredTokens (k n : Nat) (ts : List String) (j : interpreter)
    (rest : List String)
    (hc : j.commenting = false) (ha : j.anonymousStack = []) (hcomp : j.compiling = true)
    (hw : j.words = builtinWords) (hr : j.reader = ts ++ rest)
    (hts : ∀ t ∈ ts, deferredToken t = true) :
    ∃ j1, mainLoop (k + 1) (ts.length + n) j = mainLoop (k + 1) n j1 ∧
      j1.commenting = false ∧ j1.anonymousStack = [] ∧ j1.compiling = true ∧
      j1.words = builtinWords ∧ j1.reader = rest := by
  induction ts generalizing j with
  | nil =>
    refine ⟨j, ?_, hc, ha, hcomp, hw, ?_⟩
    · simp
    · simpa using hr
  | cons t ts ih =>
    obtain ⟨j1, h1, hc1, ha1, hcomp1, hw1, hr1⟩ :=
      ExecuteWord_deferredToken k { j with reader := ts ++ rest } t hc ha hcomp hw
        (hts t (List.mem_cons_self _ _))
    obtain ⟨j2, h2, hrest⟩ := ih j1 hc1 ha1 hcomp1 hw1 hr1
      (fun u hu => hts u (List.mem_cons_of_mem _ hu))
    refine ⟨j2, ?_, hrest⟩
    have e : (t :: ts).length + n = (ts.length + n) + 1 := by
      simp only [List.length_cons]; omega
    rw [e, mainLoop_step (k + 1) (ts.length + n) j t (ts ++ rest) (by simpa using hr), h1,
      andThen_ok, h2]

theorem definition_with_literal_fatal (k : Nat) (name : String) (ts tail : List String)
    (hts : ∀ t ∈ ts, deferredToken t = true) :
    runProgram (k + 2) (":" :: name :: (ts ++ "]" :: tail)) = .fatal := by
  unfold runProgram
  have e : (":" :: name :: (ts ++ "]" :: tail)).length = (ts.length + (tail.length + 2)) + 1 := by
    simp only [List.length_cons, List.length_append]; omega
  rw [e, mainLoop_step (k + 2) _ (newInterpreter (":" :: name :: (ts ++ "]" :: tail))) ":"
    (name :: (ts ++ "]" :: tail)) rfl]
  have h1 := ExecuteWord_colon k
    { newInterpreter (":" :: name :: (ts ++ "]" :: tail)) with
      reader := name :: (ts ++ "]" :: tail) } name (ts ++ "]" :: tail) rfl rfl rfl rfl rfl
  rw [h1, andThen_ok]
  obtain ⟨j1, h2, hc1, ha1, _, hw1, hr1⟩ := mainLoop_deferredTokens (k + 1) (tail.length + 2) ts
    { newInterpreter (":" :: name :: (ts ++ "]" :: tail)) with
      reader := ts ++ "]" :: tail, currentlyCompilingWord := name, compiling := true }
    ("]" :: tail) rfl rfl rfl rfl rfl hts
  rw [h2, mainLoop_step (k + 2) (tail.length + 1) j1 "]" tail hr1,
    ExecuteWord_rbracket_no_frame k { j1 with reader := tail } hc1 ha1 (by
      show j1.words "]" = _
      rw [hw1]
      rfl)]
  rfl

/-- Claim C18, as amended: in a state that is not commenting, is compiling and has
no literal frame open, dispatching `]` bound to the immediate built-in word
runs it at once and is a fatal stop.  From the initial state, for every name,
all tokens X and Y that are numerals or names of non-immediate built-in words
other than `(` (tokens that neither open a comment nor close the definition)
and whatever follows, dispatching `: name X [ Y ]` and the rest ends in a fatal
stop. -/
theorem C18_rbracket_while_compiling (k : Nat) (i : interpreter) (name : String)
    (xs ys tail : List String)
    (hc : i.commenting = false) (_hcomp : i.compiling = true) (ha : i.anonymousStack = [])
    (hw : i.words "]" = some ⟨some Native.rbracket, [], true⟩)
    (hxs : ∀ t ∈ xs, deferredToken t = true) (hys : ∀ t ∈ ys, deferredToken t = true) :
    ExecuteWord (k + 2) "]" i = .fatal ∧
    runProgram (k + 2) (":" :: name :: (xs ++ "[" :: (ys ++ "]" :: (tail ++ [";"])))) = .fatal := by
  refine ⟨ExecuteWord_rbracket_no_frame k i hc ha hw, ?_⟩
  have e : xs ++ "[" :: (ys ++ "]" :: (tail ++ [";"]))
      = (xs ++ "[" :: ys) ++ "]" :: (tail ++ [";"]) := by simp
  rw [e]
  apply definition_with_literal_fatal
  intro t ht
  rcases List.mem_append.1 ht with h | h
  · exact hxs t h
  · rcases List.mem_cons.1 h with h | h
    · rw [h]; decide
    · exact hys t h

theorem C18_rbracket_while_compiling_witness :
    ExecuteWord 2 "]" (compilingState "foo" [Value.str "["] []) = .fatal ∧
    runProgram 2 (":" :: "foo" :: (["dup", "2"] ++ "[" :: (["1", "+"] ++ "]" :: (["pop"] ++ [";"]))))
      = .fatal :=
  C18_rbracket_while_compiling 0 (compilingState "foo" [Value.str "["] []) "foo"
    ["dup", "2"] ["1", "+"] ["pop"] rfl rfl rfl rfl (by decide) (by decide)

/-- Claim C18 as stated fails: token sequences of the form `: name ... [ ... ] ... ;`
complete without a fatal stop when the brackets stand in a comment, as in
`: foo ( [ ] ) dup ;`, which defines `foo` with body `dup`, or after the
definition was closed, as in `: foo ; [ 1 ] : bar ;`, which pushes the literal. -/
theorem C18_counterexample :
    runProgram 2 [":", "foo", "(", "[", "]", ")", "dup", ";"]
      = .ok { newInterpreter [] with
          words := mapSet builtinWords "foo" ⟨none, [Value.str "dup"], false⟩ } ∧
    (runProgram 2 [":", "foo", ";", "[", "1", "]", ":", "bar", ";"]).dataStack
      = some [Value.lit [Value.int 1]] := by
  have p1 : ParseInt "1" = some 1 := by decide
  have q1 : ParseInt "dup" = none := by decide
  refine ⟨?_, ?_⟩
  · simp [runProgram, newInterpreter, mainLoop_mk, mainLoop_nil, andThen_ok, ExecuteWord_succ,
      executeWordBody, builtinWords, wordRun_succ, wordRunBody, runNative, ReadWord, q1,
      Stack.Push, mapSet]
  · simp [runProgram, newInterpreter, mainLoop_mk, mainLoop_nil, andThen_ok, ExecuteWord_succ,
      executeWordBody, builtinWords, wordRun_succ, wordRunBody, runNative, ReadWord, p1,
      Stack.Push, mapSet, pushOnTop, AnonStack.PushOnTop, AnonStack.Push, AnonStack.Pop,
      Result.dataStack]


/-! ## Rendering a literal and reading it back -/

theorem scanWordsAux_cons_word (c : Char) (cs cur : List Char) (hc : isSpace c = false) :
    scanWordsAux (c :: cs) cur = scanWordsAux cs (cur ++ [c]) := by
  simp [scanWordsAux, hc]

theorem scanWordsAux_word (w rest cur : List Char) (hw : ∀ c ∈ w, isSpace c = false) :
    scanWordsAux (w ++ rest) cur = scanWordsAux rest (cur ++ w) := by
  induction w generalizing cur with
  | nil => simp
  | cons c w ih =>
    have hc : isSpace c = false := hw c (List.mem_cons_self _ _)
    rw [List.cons_append, scanWordsAux_cons_word c _ cur hc,
      ih _ (fun d hd => hw d (List.mem_cons_of_mem _ hd))]
    simp

theorem scanWordsAux_space (rest cur : List Char) (hcur : cur ≠ []) :
    scanWordsAux (' ' :: rest) cur = String.mk cur :: scanWordsAux rest [] := by
  have hs : isSpace ' ' = true := by decide
  simp [scanWordsAux, hs, hcur]

theorem scanWordsAux_items (l : List String) (cur : List Char) (hcur : cur ≠ [])
    (hl : ∀ s ∈ l, s.data ≠ [] ∧ ∀ c ∈ s.data, isSpace c = false) :
    scanWordsAux ((l.flatMap fun s => ' ' :: s.data) ++ [' ', ']']) cur
      = String.mk cur :: (l ++ ["]"]) := by
  induction l generalizing cur with
  | nil =>
    have hb : isSpace ']' = false := by decide
    rw [List.flatMap_nil, List.nil_append, scanWordsAux_space _ _ hcur]
    simp [scanWordsAux, hb]
  | cons s l ih =>
    obtain ⟨hne, hsp⟩ := hl s (List.mem_cons_self _ _)
    rw [List.flatMap_cons, List.cons_append, List.cons_append, scanWordsAux_space _ _ hcur,
      List.append_assoc, scanWordsAux_word s.data _ [] hsp, List.nil_append,
      ih s.data hne (fun u hu => hl u (List.mem_cons_of_mem _ hu))]
    rfl

theorem intercalate_go_data (sep acc : String) (l : List String) :
    (String.intercalate.go acc sep l).data
      = acc.data ++ (l.flatMap fun s => sep.data ++ s.data) := by
  induction l generalizing acc with
  | nil => simp [String.intercalate.go]
  | cons a l ih =>
    simp only [String.intercalate.go, ih, String.data_append, List.flatMap_cons,
      List.append_assoc]

theorem ScanWords_literal (l : List String)
    (hl : ∀ s ∈ l, s.data ≠ [] ∧ ∀ c ∈ s.data, isSpace c = false) :
    ScanWords ("[ " ++ " ".intercalate l ++ " ]") = "[" :: (l ++ ["]"]) := by
  have hb : isSpace '[' = false := by decide
  have hs : isSpace ' ' = true := by decide
  have hr : isSpace ']' = false := by decide
  have e1 : "[ ".data = ['[', ' '] := rfl
  have e2 : " ]".data = [' ', ']'] := rfl
  have e0 : ("[ " ++ " ".intercalate l ++ " ]").data
      = '[' :: ' ' :: ((" ".intercalate l).data ++ [' ', ']']) := by
    rw [String.data_append, String.data_append, e1, e2]
    rfl
  have hcur : ['['] ≠ ([] : List Char) := by simp
  have start : ∀ rest, scanWordsAux ('[' :: ' ' :: rest) [] = "[" :: scanWordsAux rest [] := by
    intro rest
    rw [scanWordsAux_cons_word '[' _ [] hb, List.nil_append, scanWordsAux_space _ _ hcur]
  unfold ScanWords
  rw [e0, start]
  cases l with
  | nil =>
    have e3 : (" ".intercalate ([] : List String)).data = [] := rfl
    rw [e3]
    simp [scanWordsAux, hs, hr]
  | cons a l =>
    obtain ⟨hne, hsp⟩ := hl a (List.mem_cons_self _ _)
    have e3 : (" ".intercalate (a :: l)).data = a.data ++ (l.flatMap fun s => ' ' :: s.data) := by
      simp only [String.intercalate, intercalate_go_data]
      rfl
    rw [e3, List.append_assoc, scanWordsAux_word a.data _ [] hsp, List.nil_append,
      scanWordsAux_items l a.data hne (fun u hu => hl u (List.mem_cons_of_mem _ hu))]
    rfl


theorem digit_not_space (c : Char) (d : Nat) (hd : digitVal c = some d) (h6 : d < 6) :
    isSpace c = false := by
  have e0 : '0'.toNat = 48 := by decide
  have e9 : '9'.toNat = 57 := by decide
  unfold digitVal at hd
  rw [e0, e9] at hd
  have hr : 48 ≤ c.toNat ∧ c.toNat ≤ 53 := by
    split at hd
    · rename_i h
      cases hd
      omega
    · split at hd
      · cases hd
        omega
      · cases hd
  unfold isSpace
  have h1 : c.toNat ≤ 0xFF := by omega
  rw [if_pos h1]
  simp only [Bool.or_eq_false_iff, decide_eq_false_iff_not]
  omega

theorem FormatInt_token (n : Int) (h : isInt64 n) :
    (FormatInt n).data ≠ [] ∧ ∀ c ∈ (FormatInt n).data, isSpace c = false := by
  have hv := formatBitsLoop_valid 65 n.natAbs [] (by simp)
  have hne := formatBitsLoop_ne_nil 64 n.natAbs []
  have hdigits : ∀ c ∈ formatBitsLoop 65 n.natAbs [], isSpace c = false := by
    intro c hc
    obtain ⟨d, hd, h6⟩ := hv c hc
    exact digit_not_space c d hd h6
  by_cases hneg : n < 0
  · rw [FormatInt_neg n h.1 hneg]
    refine ⟨by simp, ?_⟩
    intro c hc
    rcases List.mem_cons.1 hc with rfl | hc
    · decide
    · exact hdigits c hc
  · rw [FormatInt_nonneg n h.2 hneg]
    exact ⟨hne, hdigits⟩

theorem stringifyItems_tokens (d : String → Option word) (items : List Value)
    (h : ∀ v ∈ items, collectable d v) :
    ∀ s ∈ stringifyItems items, s.data ≠ [] ∧ ∀ c ∈ s.data, isSpace c = false := by
  induction items with
  | nil => intro s hs; cases hs
  | cons v items ih =>
    intro s hs
    simp only [stringifyItems, List.mem_cons] at hs
    rcases hs with rfl | hs
    · have hv := h v (List.mem_cons_self _ _)
      cases v with
      | int n => exact FormatInt_token n hv
      | str t => exact ⟨hv.2.2.2.1, hv.2.2.2.2⟩
      | lit l => exact absurd hv (by simp [collectable])
      | ref key => exact absurd hv (by simp [collectable])
    · exact ih (fun u hu => h u (List.mem_cons_of_mem _ hu)) s hs

theorem ExecuteWord_collectable (k : Nat) (i : interpreter) (v : Value) (top : Stack)
    (hc : i.commenting = false) (ha : i.anonymousStack = [top]) (hd : dictOK i.words)
    (hv : collectable i.words v) :
    ExecuteWord (k + 1) (stringify v) i = .ok { i with anonymousStack := [top ++ [v]] } := by
  cases v with
  | int n =>
    have hp := ParseInt_FormatInt n hv
    have hq := FormatInt_ne_paren n hv
    simp only [stringify]
    cases hw : i.words (FormatInt n) with
    | some w =>
      have hi : w.immediate = false := by
        cases hb : w.immediate with
        | false => rfl
        | true =>
          have := hd _ w hw hb
          rw [builtinWords_FormatInt n hv] at this
          cases this
      have h := ExecuteWord_known_in_literal k i (FormatInt n) w [] top hc (by simpa using ha)
        hw hi hq
      rw [h]
      simp [tokenValue, hp]
    | none =>
      rw [ExecuteWord_succ]
      simp [executeWordBody, hq, hc, ha, hw, hp, pushOnTop, AnonStack.PushOnTop, Stack.Push]
  | str t =>
    obtain ⟨hq, hp, ⟨w, hw, hi⟩, _, _⟩ := hv
    simp only [stringify]
    have h := ExecuteWord_known_in_literal k i t w [] top hc (by simpa using ha) hw hi hq
    rw [h]
    simp [tokenValue, hp]
  | lit l => exact absurd hv (by simp [collectable])
  | ref key => exact absurd hv (by simp [collectable])

theorem ExecuteWords_collectable (k : Nat) (items : List Value) (i : interpreter) (top : Stack)
    (hc : i.commenting = false) (ha : i.anonymousStack = [top]) (hd : dictOK i.words)
    (h : ∀ v ∈ items, collectable i.words v) :
    ExecuteWords (k + 1) (stringifyItems items) i
      = .ok { i with anonymousStack := [top ++ items] } := by
  induction items generalizing i top with
  | nil =>
    simp only [stringifyItems, ExecuteWords, List.append_nil]
    rw [← ha]
  | cons v items ih =>
    simp only [stringifyItems, ExecuteWords_cons]
    rw [ExecuteWord_collectable k i v top hc ha hd (h v (List.mem_cons_self _ _)), andThen_ok]
    have h2 := ih { i with anonymousStack := [top ++ [v]] } (top ++ [v]) hc rfl hd
      (fun u hu => h u (List.mem_cons_of_mem _ hu))
    rw [h2]
    simp

/-- Claim C13: for every literal whose items the literal branch of the dispatcher
can collect under the dictionary at hand (integers it parsed, and tokens naming
known non-immediate words that do not parse), the text `stringify` renders
splits at its spaces into `[`, the renderings of the items and `]`, and
dispatching these tokens in order from a normal state with that dictionary
pushes onto the Data Stack the very same literal, all else unchanged. -/
theorem C13_literal_round_trip (k : Nat) (i : interpreter) (items : List Value)
    (hc : i.commenting = false) (hcomp : i.compiling = false) (ha : i.anonymousStack = [])
    (hd : dictOK i.words)
    (hopen : i.words "[" = some ⟨some Native.lbracket, [], false⟩)
    (hclose : i.words "]" = some ⟨some Native.rbracket, [], true⟩)
    (hitems : ∀ v ∈ items, collectable i.words v) :
    ScanWords (stringify (Value.lit items)) = "[" :: (stringifyItems items ++ ["]"]) ∧
    ExecuteWords (k + 2) (ScanWords (stringify (Value.lit items))) i
      = .ok { i with stack := i.stack ++ [Value.lit items] } ∧
    deepEqual (Value.lit items) (Value.lit items) = true := by
  have hscan : ScanWords (stringify (Value.lit items)) = "[" :: (stringifyItems items ++ ["]"]) := by
    simp only [stringify]
    exact ScanWords_literal _ (stringifyItems_tokens i.words items hitems)
  refine ⟨hscan, ?_, (deepEqual_iff _ _).2 rfl⟩
  have hq1 : ¬ ("[" = "(") := by decide
  have hq2 : ¬ ("]" = "(") := by decide
  have h1 : ExecuteWord (k + 2) "[" i = .ok { i with anonymousStack := [[]] } := by
    rw [ExecuteWord_succ]
    simp [executeWordBody, hq1, hc, ha, hopen, hcomp, wordRun_succ, wordRunBody, runNative,
      AnonStack.Push]
  have h2 := ExecuteWords_collectable (k + 1) items { i with anonymousStack := [[]] } [] hc rfl
    hd hitems
  have h3 : ExecuteWord (k + 2) "]" { i with anonymousStack := [[] ++ items] }
      = .ok { i with stack := i.stack ++ [Value.lit items] } := by
    rw [ExecuteWord_succ]
    simp [executeWordBody, hq2, hc, hclose, wordRun_succ, wordRunBody, runNative,
      AnonStack.Pop, Stack.Push, ha]
  rw [hscan, ExecuteWords_cons, h1, andThen_ok, ExecuteWords_append, h2, andThen_ok,
    ExecuteWords_cons, h3]
  rfl

theorem C13_literal_round_trip_witness :
    ExecuteWords 2 (ScanWords (stringify (Value.lit [Value.int 8, Value.str "dup", Value.int (-1)])))
        { newInterpreter [] with stack := [Value.int 3] }
      = .ok { newInterpreter [] with
          stack := [Value.int 3] ++ [Value.lit [Value.int 8, Value.str "dup", Value.int (-1)]] } :=
  (C13_literal_round_trip 0 { newInterpreter [] with stack := [Value.int 3] }
    [Value.int 8, Value.str "dup", Value.int (-1)] rfl rfl rfl dictOK_builtinWords rfl rfl
    (by
      intro v hv
      simp only [List.mem_cons, List.mem_singleton, List.not_mem_nil, or_false] at hv
      rcases hv with rfl | rfl | rfl
      · show isInt64 8
        decide
      · exact ⟨by decide, by decide, ⟨_, rfl, rfl⟩, by decide, by decide⟩
      · show isInt64 (-1)
        decide)).2.1

end Gophorth
